import Mathlib

/-!
Verification of `project_euler/problem_101/sol1.py`.

The Python module implements a dense linear-system solver (`solve`, Gaussian
elimination with partial pivoting and back substitution), a polynomial
interpolation layer (`interpolate`), the question's generating function
(`question_function`) and the orchestration loop (`solution`).

Modelling conventions:
* Python floating-point arithmetic is modelled as exact rational arithmetic
  over `ℚ`; Python's `round` (banker's rounding, half to even) is modelled
  exactly by `pyRound`, and `round(x, 10)` by `round10`.
* Python list indexing `m[r][c]` on the input matrices is modelled by `mget`
  (out-of-range reads default to `0`; all theorems below are stated for
  well-formed inputs where every access is in range, so the model agrees
  with the Python semantics there).
* The mutable augmented matrix is modelled as a list of rows, with each
  Python index assignment modelled by a functional update (`setE`).
* Python raises `ZeroDivisionError` on division by zero (also for floats);
  every division whose divisor is not syntactically guaranteed nonzero is
  modelled in the `Option` monad, `none` standing for the raised exception.
* The unbounded `while` scan in `solution` is modelled with an explicit
  fuel parameter; termination of the Python loop corresponds to
  `∃ fuel, … = some _`.
-/

namespace Euler101

/-- Python's `round` with no digits argument: round half to even. -/
def pyRound (q : ℚ) : ℤ :=
  let f := ⌊q⌋
  if q - f < 1/2 then f
  else if 1/2 < q - f then f + 1
  else if f % 2 = 0 then f else f + 1

/-- Python's `round(q, 10)`: round to the nearest multiple of `10⁻¹⁰`, ties to even. -/
def round10 (q : ℚ) : ℚ :=
  (pyRound (q * 10 ^ 10) : ℚ) / 10 ^ 10

/-- Read entry `m[r][c]` of a list-of-lists matrix (0 when out of range). -/
def mget (m : List (List ℚ)) (r c : ℕ) : ℚ := (m.getD r []).getD c 0

/-- The mutable working (augmented) matrix of `solve`, a list of rows as in
the Python source. -/
abbrev Aug := List (List ℚ)

/-- Index assignment `a[i][j] = v` on the working matrix. -/
def setE (a : Aug) (i j : ℕ) (v : ℚ) : Aug :=
  a.set i ((a.getD i []).set j v)

/-- The simultaneous row swap `augmented[row], augmented[p] = augmented[p], augmented[row]`. -/
def swapRows (a : Aug) (i j : ℕ) : Aug :=
  (a.set i (a.getD j [])).set j (a.getD i [])

/-- Loop `for i in range(lo, hi)` threading a state through the body. -/
def forRange {α : Type} (lo hi : ℕ) (f : α → ℕ → α) (init : α) : α :=
  (List.range' lo (hi - lo)).foldl f init

/-- Loop `for i in range(lo, hi)` threading a state, where the body may raise. -/
def forRangeM {α : Type} (lo hi : ℕ) (f : α → ℕ → Option α) (init : α) : Option α :=
  (List.range' lo (hi - lo)).foldlM f init

/-- Copy phase: `augmented[row][col] = matrix[row][col]` for `col < size`, and
`augmented[row][size] = vector[row][0]`: the initial augmented matrix. -/
def toAug (matrix vector : List (List ℚ)) (size : ℕ) : Aug :=
  (List.range size).map
    (fun row => (List.range size).map (fun col => mget matrix row col) ++ [mget vector row 0])

/-- Pivot search `max([(abs(augmented[row2][col]), row2) for row2 in range(col, size)])[1]`:
partial pivoting; Python's `max` on pairs is lexicographic, so among rows of
maximal absolute value the largest row index wins. -/
def pivotRow (a : Aug) (col size : ℕ) : ℕ :=
  (forRange (col + 1) size
    (fun best r2 => if |mget a r2 col| ≥ best.1 then (|mget a r2 col|, r2) else best)
    (|mget a col col|, col)).2

/-- The elimination of all rows below `row`: for each `row2` in
`range(row+1, size)`, compute `ratio`, zero the `col` entry and subtract
`ratio` times row `row` from the entries `col+1 … size`. -/
def eliminateBelow (a : Aug) (size row col : ℕ) : Aug :=
  forRange (row + 1) size
    (fun b row2 =>
      let ratio := mget b row2 col / mget b row col
      let b1 := setE b row2 col 0
      forRange (col + 1) (size + 1)
        (fun c col2 => setE c row2 col2 (mget c row2 col2 - mget c row col2 * ratio)) b1)
    a

/-- The `while row < size and col < size` elimination loop.  The first
argument is structural fuel; `col` strictly increases every iteration, so
fuel `size` runs the loop to completion (the call sites use exactly that).
A zero pivot advances only the column cursor; otherwise the pivot row is
swapped in and the rows below are eliminated. -/
def elimGas : ℕ → Aug → ℕ → ℕ → ℕ → Aug
  | 0, a, _, _, _ => a
  | gas + 1, a, size, row, col =>
    if row < size ∧ col < size then
      if mget a (pivotRow a col size) col = 0 then
        elimGas gas a size row (col + 1)
      else
        elimGas gas (eliminateBelow (swapRows a row (pivotRow a col size)) size row col)
          size (row + 1) (col + 1)
    else a

/-- Back substitution: for `col in range(1, size)`, for `row in range(col)`,
subtract `ratio` times row `col` from row `row` on columns `col … size`;
the division defining `ratio` raises when the diagonal entry is zero. -/
def backSubst (a : Aug) (size : ℕ) : Option Aug :=
  forRangeM 1 size
    (fun b col =>
      forRangeM 0 col
        (fun b2 row =>
          if mget b2 col col = 0 then none
          else
            let ratio := mget b2 row col / mget b2 col col
            some (forRange col (size + 1)
              (fun b3 col2 => setE b3 row col2 (mget b3 row col2 - mget b3 col col2 * ratio)) b2))
        b)
    a

/-- The final extraction `[[round(a[row][size] / a[row][row], 10)] for row in range(size)]`;
a zero diagonal divisor raises. -/
def extractSol (a : Aug) (size : ℕ) : Option (List (List ℚ)) :=
  (List.range size).mapM
    (fun row => if mget a row row = 0 then none
      else some [round10 (mget a row size / mget a row row)])

/-- Function `solve(matrix, vector)`: Gaussian elimination with partial pivoting and
back substitution, the whole of the Python function. -/
def solve (matrix vector : List (List ℚ)) : Option (List (List ℚ)) :=
  let size := matrix.length
  let a := elimGas size (toAug matrix vector size) size 0 0
  (backSubst a size).bind (fun b => extractSol b size)

/-- The forward-eliminated augmented matrix of a `solve` call (the state of
`augmented` after the `while` loop, before back substitution). -/
def elimAug (matrix vector : List (List ℚ)) : Aug :=
  elimGas matrix.length (toAug matrix vector matrix.length) matrix.length 0 0

/-- Function `interpolate(y_list)`: build the Vandermonde-style matrix with entries
`(x_val+1)^(size-col-1)`, solve, and return the evaluator
`sum(round(coeffs[x][0]) * var**(size-x-1) for x in range(size))`. -/
def interpolate (y_list : List ℤ) : Option (ℤ → ℤ) :=
  let size := y_list.length
  let matrix := (List.range size).map
    (fun x_val : ℕ => (List.range size).map (fun col => ((x_val : ℚ) + 1) ^ (size - col - 1)))
  let vector := y_list.map (fun y_val : ℤ => [(y_val : ℚ)])
  (solve matrix vector).map
    (fun coeffs var =>
      ((List.range size).map
        (fun x_val => pyRound (mget coeffs x_val 0) * var ^ (size - x_val - 1))).sum)

/-- The evaluator of `interpolate y_list` applied at `x` (for concrete tests). -/
def interpEval (y_list : List ℤ) (x : ℤ) : Option ℤ :=
  (interpolate y_list).map (fun f => f x)

/-- Function `question_function(variable)`: the degree-10 alternating polynomial. -/
def question_function (v : ℤ) : ℤ :=
  1 - v + v ^ 2 - v ^ 3 + v ^ 4 - v ^ 5 + v ^ 6 - v ^ 7 + v ^ 8 - v ^ 9 + v ^ 10

/-- The scan `x_val = 1; while func(x_val) == poly(x_val): x_val += 1`,
with fuel; returns the first `x ≥ start` where the two disagree. -/
def firstDisagree (func poly : ℤ → ℤ) : ℕ → ℤ → Option ℤ
  | 0, _ => none
  | fuel + 1, x_val =>
    if func x_val = poly x_val then firstDisagree func poly fuel (x_val + 1) else some x_val

/-- Function `solution(func, order)`: interpolate every prefix of the first `order`
data points, find each interpolant's first incorrect term, and sum the
interpolants' values there.  `fuel` bounds each `while` scan. -/
def solution (func : ℤ → ℤ) (order : ℕ) (fuel : ℕ) : Option ℤ :=
  let data_points := (List.range order).map (fun i : ℕ => func ((i : ℤ) + 1))
  ((List.range order).mapM (fun k => interpolate (data_points.take (k + 1)))).bind
    (fun polys =>
      polys.foldlM
        (fun ret poly => (firstDisagree func poly fuel 1).map (fun x_val => ret + poly x_val))
        0)

/-! ### Basic loop lemmas -/

theorem forRange_empty {α : Type} (lo hi : ℕ) (f : α → ℕ → α) (init : α) (h : hi ≤ lo) :
    forRange lo hi f init = init := by
  unfold forRange
  rw [Nat.sub_eq_zero_of_le h]
  rfl

theorem forRange_step {α : Type} (lo hi : ℕ) (f : α → ℕ → α) (init : α) (h : lo < hi) :
    forRange lo hi f init = forRange (lo + 1) hi f (f init lo) := by
  unfold forRange
  have h1 : hi - lo = (hi - (lo + 1)) + 1 := by omega
  rw [h1, List.range'_succ]
  rfl

theorem forRange_concat {α : Type} (lo hi : ℕ) (f : α → ℕ → α) (init : α) (h : lo ≤ hi) :
    forRange lo (hi + 1) f init = f (forRange lo hi f init) hi := by
  unfold forRange
  have h1 : hi + 1 - lo = (hi - lo) + 1 := by omega
  have h2 : lo + 1 * (hi - lo) = hi := by omega
  rw [h1, List.range'_concat, List.foldl_append, h2]
  rfl

theorem forRangeM_empty {α : Type} (lo hi : ℕ) (f : α → ℕ → Option α) (init : α) (h : hi ≤ lo) :
    forRangeM lo hi f init = some init := by
  unfold forRangeM
  rw [Nat.sub_eq_zero_of_le h]
  rfl

theorem forRangeM_step {α : Type} (lo hi : ℕ) (f : α → ℕ → Option α) (init : α) (h : lo < hi) :
    forRangeM lo hi f init = (f init lo).bind (forRangeM (lo + 1) hi f) := by
  unfold forRangeM
  have h1 : hi - lo = (hi - (lo + 1)) + 1 := by omega
  rw [h1, List.range'_succ, List.foldlM_cons]
  rfl

theorem forRangeM_concat {α : Type} (lo hi : ℕ) (f : α → ℕ → Option α) (init : α) (h : lo ≤ hi) :
    forRangeM lo (hi + 1) f init = (forRangeM lo hi f init).bind (fun s => f s hi) := by
  unfold forRangeM
  have h1 : hi + 1 - lo = (hi - lo) + 1 := by omega
  have h2 : lo + 1 * (hi - lo) = hi := by omega
  rw [h1, List.range'_concat, List.foldlM_append, h2]
  cases (List.range' lo (hi - lo)).foldlM f init <;> simp

/-- Invariant rule for `forRange`: a predicate indexed by the loop counter. -/
theorem forRange_inv {α : Type} {lo hi : ℕ} {f : α → ℕ → α} {init : α}
    (P : ℕ → α → Prop) (hinit : P lo init)
    (hstep : ∀ i s, lo ≤ i → i < hi → P i s → P (i + 1) (f s i)) (hle : lo ≤ hi) :
    P hi (forRange lo hi f init) := by
  obtain ⟨d, rfl⟩ : ∃ d, hi = lo + d := ⟨hi - lo, by omega⟩
  clear hle
  induction d with
  | zero => simpa [forRange_empty] using hinit
  | succ d ih =>
    rw [← Nat.add_assoc, forRange_concat lo (lo + d) f init (by omega)]
    exact hstep _ _ (by omega) (by omega)
      (ih (fun i s h1 h2 h3 => hstep i s h1 (by omega) h3))

/-! ### Rounding lemmas -/

theorem pyRound_intCast (z : ℤ) : pyRound (z : ℚ) = z := by
  unfold pyRound
  norm_num

theorem round10_intCast (z : ℤ) : round10 (z : ℚ) = (z : ℚ) := by
  unfold round10
  have h : ((z : ℚ) * 10 ^ 10) = ((z * 10 ^ 10 : ℤ) : ℚ) := by push_cast; ring
  rw [h, pyRound_intCast]
  push_cast
  field_simp
  norm_num

/-! ### Reading entries after updates -/

theorem mget_nil (r c : ℕ) : mget [] r c = 0 := by
  unfold mget
  simp

theorem mget_eq_getElem? (m : List (List ℚ)) (r c : ℕ) :
    mget m r c = ((m[r]?.getD [])[c]?.getD 0) := by
  unfold mget
  rw [List.getD_eq_getElem?_getD, List.getD_eq_getElem?_getD]

theorem mget_map_take (A : List (List ℚ)) (n r c : ℕ) (hc : c < n) :
    mget (A.map (fun row => row.take n)) r c = mget A r c := by
  rw [mget_eq_getElem?, mget_eq_getElem?, List.getElem?_map]
  cases hr : A[r]? with
  | none => simp
  | some row =>
    simp only [Option.map_some', Option.getD_some]
    rw [List.getElem?_take_of_lt hc]

section ConcreteClaims

attribute [local semireducible] Rat.mul Rat.inv Rat.add Rat.sub

/-- Claim C5: the documented concrete evaluations of the interpolator on
prefixes of the cube sequence: `interpolate([1, 8])(3) = 15`,
`interpolate([1, 8, 27])(4) = 58` and `interpolate([1, 8, 27, 64])(6) = 216`. -/
theorem C5_interpolator_cube_prefixes :
    interpEval [1, 8] 3 = some 15 ∧ interpEval [1, 8, 27] 4 = some 58 ∧
      interpEval [1, 8, 27, 64] 6 = some 216 := by
  refine ⟨by decide, by decide, by decide⟩

/-- Claim C6: with the reference sequence `u(n) = n³` and order 3, `solution`
returns 74; the order-1, order-2 and order-3 interpolants agree with the cube
sequence up to positions 1, 2, 3 respectively, their values at the first
incorrect positions 2, 3, 4 are 1, 15, 58, and the total is 1 + 15 + 58 = 74. -/
theorem C6_solution_cube_order3 :
    solution (fun n => n ^ 3) 3 10 = some 74 ∧
      interpEval [1] 1 = some 1 ∧ interpEval [1] 2 = some 1 ∧
      interpEval [1, 8] 1 = some 1 ∧ interpEval [1, 8] 2 = some 8 ∧
      interpEval [1, 8] 3 = some 15 ∧
      interpEval [1, 8, 27] 1 = some 1 ∧ interpEval [1, 8, 27] 2 = some 8 ∧
      interpEval [1, 8, 27] 3 = some 27 ∧ interpEval [1, 8, 27] 4 = some 58 ∧
      (1 + 15 + 58 : ℤ) = 74 := by
  refine ⟨by decide, by decide, by decide, by decide, by decide, by decide, by decide,
    by decide, by decide, by decide, by decide⟩

/-- Claim C7, counterexample: `solve` called with the non-square 1×2 matrix
`[[1, 5]]` does not raise any error (no `DimensionMismatchError` exists in the
code, and no dimension check is performed): it returns `[[2.0]]` normally. -/
theorem C7_counterexample_no_dimension_check :
    solve [[1, 5]] [[2]] = some [[2]] := by
  decide

/-- Claim C7, amended: `solve` performs no dimension validation at its
boundary.  It reads only the first `len(matrix)` columns of each row, so it
behaves on any input exactly as on the matrix truncated to `len(matrix)`
columns; wide or ragged rows are silently truncated rather than rejected. -/
theorem C7_amended_solve_ignores_extra_columns (matrix vector : List (List ℚ)) :
    solve matrix vector = solve (matrix.map (fun row => row.take matrix.length)) vector := by
  have hlen : (matrix.map (fun row => row.take matrix.length)).length = matrix.length :=
    List.length_map _ _
  have haug : toAug (matrix.map (fun row => row.take matrix.length)) vector
      matrix.length = toAug matrix vector matrix.length := by
    unfold toAug
    refine List.map_congr_left (fun r hr => ?_)
    congr 1
    refine List.map_congr_left (fun c hc => ?_)
    exact mget_map_take _ _ _ _ (List.mem_range.mp hc)
  simp only [solve, hlen, haug]

end ConcreteClaims

/-- Behaviour of `solve` on the 1×1 system `[[1]]·x = [[q]]`: it returns `[[round10 q]]`. -/
theorem solve_single (q : ℚ) : solve [[1]] [[q]] = some [[round10 q]] := by
  have h1 : toAug [[1]] [[q]] 1 = [[1, q]] := by
    simp [toAug, mget, List.range_succ]
  simp only [solve, List.length_singleton, h1]
  have h2 : pivotRow [[1, q]] 0 1 = 0 := by
    simp [pivotRow, forRange_empty]
  have h3 : elimGas 1 [[1, q]] 1 0 0 = [[1, q]] := by
    simp [elimGas, h2, mget, swapRows, eliminateBelow, forRange_empty]
  rw [h3]
  have h4 : backSubst [[1, q]] 1 = some [[1, q]] := by
    simp [backSubst, forRangeM_empty]
  rw [h4]
  simp [extractSol, List.range_succ, List.mapM_cons, List.mapM_nil, List.mapM.loop, mget]

/-- Claim C4: for every integer `c` the evaluator returned by
`interpolate([c])` is the constant function `c`: the 1×1 system `[[1]]·x = c`
is solved trivially and the degree-0 evaluator ignores its argument. -/
theorem C4_interpolate_constant (c : ℤ) :
    ∃ f, interpolate [c] = some f ∧ ∀ x : ℤ, f x = c := by
  have hm : (List.range 1).map
      (fun x_val : ℕ => (List.range 1).map
        (fun col => ((x_val : ℚ) + 1) ^ (1 - col - 1))) = [[1]] := by
    simp [List.range_succ]
  have hv : [c].map (fun y_val : ℤ => [(y_val : ℚ)]) = [[(c : ℚ)]] := by simp
  refine ⟨fun var => ((List.range 1).map
      (fun x_val => pyRound (mget [[(c : ℚ)]] x_val 0) * var ^ (1 - x_val - 1))).sum,
    ?_, ?_⟩
  · simp only [interpolate, List.length_singleton, hm, hv, solve_single, round10_intCast,
      Option.map_some']
  · intro x
    simp [mget, pyRound_intCast, List.range_succ]

/-! ### Reading around functional updates -/

theorem mget_setE_of_ne_row (a : Aug) (i j : ℕ) (v : ℚ) (r c : ℕ) (h : r ≠ i) :
    mget (setE a i j v) r c = mget a r c := by
  unfold setE mget
  simp only [List.getD_eq_getElem?_getD]
  rw [List.getElem?_set_ne (Ne.symm h)]

theorem mget_setE_of_ne_col (a : Aug) (i j : ℕ) (v : ℚ) (r c : ℕ) (h : c ≠ j) :
    mget (setE a i j v) r c = mget a r c := by
  by_cases hr : r = i
  · subst hr
    unfold setE
    by_cases hlen : r < a.length
    · unfold mget
      simp only [List.getD_eq_getElem?_getD]
      rw [List.getElem?_set_self hlen]
      simp only [Option.getD_some]
      rw [List.getElem?_set_ne (Ne.symm h)]
    · rw [List.set_eq_of_length_le (by omega)]
  · exact mget_setE_of_ne_row a i j v r c hr

/-- Invariant rule for `forRange` with a counter-free predicate (no bound
on the loop range needed). -/
theorem forRange_keep {α : Type} {lo hi : ℕ} {f : α → ℕ → α} {init : α}
    (P : α → Prop) (hinit : P init)
    (hstep : ∀ s i, lo ≤ i → i < hi → P s → P (f s i)) :
    P (forRange lo hi f init) := by
  rcases Nat.lt_or_ge lo hi with hlt | hge
  · exact forRange_inv (fun _ s => P s) hinit (fun i s h1 h2 h3 => hstep s i h1 h2 h3) (by omega)
  · rw [forRange_empty _ _ _ _ hge]
    exact hinit

/-- Invariant rule for `forRangeM` when every step succeeds. -/
theorem forRangeM_inv {α : Type} {lo hi : ℕ} {f : α → ℕ → Option α} {init : α}
    (P : ℕ → α → Prop) (hinit : P lo init)
    (hstep : ∀ i s, lo ≤ i → i < hi → P i s → ∃ t, f s i = some t ∧ P (i + 1) t)
    (hle : lo ≤ hi) :
    ∃ t, forRangeM lo hi f init = some t ∧ P hi t := by
  obtain ⟨d, rfl⟩ : ∃ d, hi = lo + d := ⟨hi - lo, by omega⟩
  clear hle
  induction d with
  | zero => exact ⟨init, by simpa [forRangeM_empty] using hinit⟩
  | succ d ih =>
    obtain ⟨s, hs, hPs⟩ := ih (fun i s h1 h2 h3 => hstep i s h1 (by omega) h3)
    obtain ⟨t, ht, hPt⟩ := hstep (lo + d) s (by omega) (by omega) hPs
    refine ⟨t, ?_, hPt⟩
    rw [← Nat.add_assoc, forRangeM_concat lo (lo + d) f init (by omega), hs]
    simpa using ht

/-- Induction rule for `forRangeM` conditioned on overall success. -/
theorem forRangeM_some_ind {α : Type} {lo hi : ℕ} {f : α → ℕ → Option α} {init : α}
    (P : ℕ → α → Prop) (hinit : P lo init)
    (hstep : ∀ i s t, lo ≤ i → i < hi → P i s → f s i = some t → P (i + 1) t)
    (hle : lo ≤ hi) :
    ∀ t, forRangeM lo hi f init = some t → P hi t := by
  obtain ⟨d, rfl⟩ : ∃ d, hi = lo + d := ⟨hi - lo, by omega⟩
  clear hle
  induction d with
  | zero =>
    intro t ht
    rw [forRangeM_empty lo (lo + 0) f init (by omega)] at ht
    cases ht
    exact hinit
  | succ d ih =>
    intro t ht
    rw [← Nat.add_assoc, forRangeM_concat lo (lo + d) f init (by omega)] at ht
    obtain ⟨s, hs, hstep'⟩ := Option.bind_eq_some.mp ht
    exact hstep (lo + d) s t (by omega) (by omega)
      (ih (fun i s t h1 h2 h3 h4 => hstep i s t h1 (by omega) h3 h4) s hs) hstep'

/-- A monadic map over `Option` fails as soon as one element fails. -/
theorem mapM_eq_none_of_mem {α β : Type} (l : List α) (f : α → Option β) (x : α)
    (hx : x ∈ l) (hfx : f x = none) : l.mapM f = none := by
  induction l with
  | nil => cases hx
  | cons a l ih =>
    rcases List.mem_cons.mp hx with rfl | hmem
    · rw [List.mapM_cons, hfx]; rfl
    · cases ha : f a with
      | none => rw [List.mapM_cons, ha]; rfl
      | some b => rw [List.mapM_cons, ha, ih hmem]; rfl

/-- A monadic map over `Option` whose steps all succeed is the plain map. -/
theorem mapM_eq_some_map {α β : Type} (l : List α) (f : α → Option β) (g : α → β)
    (h : ∀ x ∈ l, f x = some (g x)) : l.mapM f = some (l.map g) := by
  induction l with
  | nil => rfl
  | cons a l ih =>
    rw [List.mapM_cons, h a (List.mem_cons_self a l),
      ih (fun x hx => h x (List.mem_cons_of_mem a hx))]
    rfl

/-! ### Behaviour of back substitution on the diagonal -/

/-- The inner back-substitution loop over `row in range(k)` (for `k ≤ col`)
never writes a diagonal entry, and it can only succeed when the diagonal
entry of the pivot row `col` is nonzero. -/
theorem backSubst_inner (a : Aug) (size col k : ℕ) (hk : k ≤ col) :
    ∀ t, forRangeM 0 k
        (fun b2 row =>
          if mget b2 col col = 0 then none
          else
            let ratio := mget b2 row col / mget b2 col col
            some (forRange col (size + 1)
              (fun b3 col2 => setE b3 row col2 (mget b3 row col2 - mget b3 col col2 * ratio)) b2))
        a = some t →
      (∀ d, mget t d d = mget a d d) ∧ (1 ≤ k → mget a col col ≠ 0) := by
  intro t ht
  have main : ∀ d, mget t d d = mget a d d := by
    refine forRangeM_some_ind (fun i s => i ≤ k ∧ ∀ d, mget s d d = mget a d d)
      ⟨Nat.zero_le k, fun d => rfl⟩ ?_ (Nat.zero_le k) t ht |>.2
    intro i s u _ hik ⟨hik', hPs⟩ hsu
    refine ⟨by omega, ?_⟩
    by_cases hz : mget s col col = 0
    · simp [hz] at hsu
    · simp only [if_neg hz] at hsu
      cases hsu
      intro d
      rw [← hPs d]
      refine forRange_keep (fun b3 => mget b3 d d = mget s d d) rfl ?_
      intro b3 col2 hcol2 _ hb3
      rw [← hb3]
      by_cases hdi : d = i
      · exact mget_setE_of_ne_col _ _ _ _ _ _ (by omega)
      · exact mget_setE_of_ne_row _ _ _ _ _ _ hdi
  refine ⟨main, ?_⟩
  intro hk1
  rw [forRangeM_step 0 k _ a (by omega)] at ht
  by_cases hz : mget a col col = 0
  · simp [hz] at ht
  · exact hz

/-- If back substitution succeeds it preserves every diagonal entry, and
every diagonal entry `1 ≤ c < size` it divided by was nonzero already in
its input. -/
theorem backSubst_some_facts (a : Aug) (size : ℕ) :
    ∀ b, backSubst a size = some b →
      (∀ d, mget b d d = mget a d d) ∧ (∀ c, 1 ≤ c → c < size → mget a c c ≠ 0) := by
  unfold backSubst
  by_cases hsz : 1 ≤ size
  · intro b hb
    have := forRangeM_some_ind
      (fun i s => (∀ d, mget s d d = mget a d d) ∧ ∀ c, 1 ≤ c → c < i → mget a c c ≠ 0)
      ⟨fun d => rfl, fun c hc1 hc2 => absurd hc2 (by omega)⟩ ?_ hsz b hb
    · exact ⟨this.1, fun c h1 h2 => this.2 c h1 h2⟩
    · intro i s t hi1 hi2 ⟨hdiag, hnz⟩ hstep
      obtain ⟨hdiag', hinz⟩ := backSubst_inner s size i i (le_refl i) t hstep
      refine ⟨fun d => (hdiag' d).trans (hdiag d), ?_⟩
      intro c hc1 hc2
      rcases Nat.lt_or_ge c i with hci | hci
      · exact hnz c hc1 hci
      · have hci' : c = i := by omega
        subst hci'
        rw [← hdiag c]
        exact hinz hc1
  · intro b hb
    rw [forRangeM_empty _ _ _ _ (by omega)] at hb
    cases hb
    exact ⟨fun d => rfl, fun c h1 h2 => absurd (by omega : (1:ℕ) ≤ 0) (by omega)⟩

/-- Claim C8: whenever a diagonal entry of the forward-eliminated augmented
matrix is zero — hence would be used as a zero divisor in back substitution
or in the final extraction — `solve` fails with an error (modelled `none`,
the Python `ZeroDivisionError`); it never silently returns a result vector. -/
theorem C8_zero_diagonal_raises (matrix vector : List (List ℚ)) (r : ℕ)
    (hr : r < matrix.length) (hz : mget (elimAug matrix vector) r r = 0) :
    solve matrix vector = none := by
  show (backSubst (elimAug matrix vector) matrix.length).bind
    (fun b => extractSol b matrix.length) = none
  cases hb : backSubst (elimAug matrix vector) matrix.length with
  | none => rfl
  | some b =>
    obtain ⟨hdiag, hnz⟩ := backSubst_some_facts _ _ b hb
    rcases Nat.lt_or_ge r 1 with hr1 | hr1
    · have hr0 : r = 0 := by omega
      subst hr0
      have : mget b 0 0 = 0 := by rw [hdiag 0]; exact hz
      simp only [Option.some_bind]
      exact mapM_eq_none_of_mem _ _ 0 (List.mem_range.mpr hr) (by simp [this])
    · exact absurd hz (hnz r hr1 hr)

/-- Witness for C8 at the singular input `solve([[0]], [[1]])`: the
eliminated matrix has a zero diagonal entry, and `solve` raises. -/
theorem C8_zero_diagonal_raises_witness :
    (0 < [[(0 : ℚ)]].length ∧ mget (elimAug [[(0 : ℚ)]] [[1]]) 0 0 = 0) ∧
      solve [[(0 : ℚ)]] [[1]] = none :=
  ⟨⟨by decide, by decide⟩, C8_zero_diagonal_raises [[0]] [[1]] 0 (by decide) (by decide)⟩

/-! ### Shape of the working matrix -/

/-- Well-formedness: `n` rows, each of length `n + 1`. -/
def wf (a : Aug) (n : ℕ) : Prop :=
  a.length = n ∧ ∀ row ∈ a, row.length = n + 1

theorem wf_row_len {a : Aug} {n : ℕ} (hwf : wf a n) (r : ℕ) (hr : r < n) :
    (a.getD r []).length = n + 1 := by
  have hr' : r < a.length := by rw [hwf.1]; exact hr
  rw [List.getD_eq_getElem?_getD, List.getElem?_eq_getElem hr']
  exact hwf.2 _ (List.getElem_mem hr')

theorem mget_of_ge {a : Aug} {n : ℕ} (hwf : wf a n) (r c : ℕ) (hr : n ≤ r) :
    mget a r c = 0 := by
  have hlen : a.length ≤ r := by rw [hwf.1]; omega
  unfold mget
  rw [List.getD_eq_getElem?_getD a, List.getElem?_eq_none hlen]
  simp

theorem mget_of_col_ge {a : Aug} {n : ℕ} (hwf : wf a n) (r c : ℕ) (hc : n + 1 ≤ c) :
    mget a r c = 0 := by
  rcases Nat.lt_or_ge r n with hr | hr
  · have hlen : (a.getD r []).length ≤ c := by rw [wf_row_len hwf r hr]; omega
    unfold mget
    rw [List.getD_eq_getElem?_getD (a.getD r []), List.getElem?_eq_none hlen]
    simp
  · exact mget_of_ge hwf r c hr

theorem wf_setE {a : Aug} {n : ℕ} (hwf : wf a n) (i j : ℕ) (v : ℚ) :
    wf (setE a i j v) n := by
  unfold setE
  rcases Nat.lt_or_ge i n with hi | hi
  · constructor
    · rw [List.length_set]; exact hwf.1
    · intro row hrow
      rcases List.mem_or_eq_of_mem_set hrow with hmem | rfl
      · exact hwf.2 _ hmem
      · rw [List.length_set]
        exact wf_row_len hwf i hi
  · rw [List.set_eq_of_length_le (by rw [hwf.1]; omega)]
    exact hwf

theorem mget_setE_same {a : Aug} {n : ℕ} (hwf : wf a n) (i j : ℕ) (v : ℚ)
    (hi : i < n) (hj : j < n + 1) : mget (setE a i j v) i j = v := by
  have h1 : i < a.length := by rw [hwf.1]; exact hi
  have h2 : j < ((a[i]?).getD []).length := by
    rw [← List.getD_eq_getElem?_getD, wf_row_len hwf i hi]; exact hj
  unfold setE mget
  simp only [List.getD_eq_getElem?_getD]
  rw [List.getElem?_set_self h1]
  simp only [Option.getD_some]
  rw [List.getElem?_set_self h2]
  simp

theorem wf_swapRows {a : Aug} {n : ℕ} (hwf : wf a n) (i j : ℕ) (hi : i < n) (hj : j < n) :
    wf (swapRows a i j) n := by
  unfold swapRows
  constructor
  · rw [List.length_set, List.length_set]; exact hwf.1
  · intro row hrow
    rcases List.mem_or_eq_of_mem_set hrow with hmem | rfl
    · rcases List.mem_or_eq_of_mem_set hmem with hmem' | rfl
      · exact hwf.2 _ hmem'
      · exact wf_row_len hwf j hj
    · exact wf_row_len hwf i hi

theorem mget_swapRows {a : Aug} {n : ℕ} (hwf : wf a n) (i j : ℕ) (hi : i < n) (hj : j < n)
    (r c : ℕ) :
    mget (swapRows a i j) r c =
      if r = j then mget a i c else if r = i then mget a j c else mget a r c := by
  have hi' : i < a.length := by rw [hwf.1]; exact hi
  unfold swapRows mget
  simp only [List.getD_eq_getElem?_getD]
  by_cases hrj : r = j
  · subst hrj
    rw [if_pos rfl, List.getElem?_set_self (by rw [List.length_set, hwf.1]; exact hj)]
    simp
  · rw [if_neg hrj, List.getElem?_set_ne (Ne.symm hrj)]
    by_cases hri : r = i
    · subst hri
      rw [if_pos rfl, List.getElem?_set_self hi']
      simp
    · rw [if_neg hri, List.getElem?_set_ne (Ne.symm hri)]

/-! ### The linear system carried by the augmented matrix -/

/-- The first `m` columns of rows `0 … n-1`, applied to `x`, all vanish.
With `m = n` this is the kernel condition for the coefficient part; with
`m = n + 1` and `x` extended by `-1` at index `n` it expresses `A·x = b`. -/
def rowsNull (a : Aug) (n m : ℕ) (x : ℕ → ℚ) : Prop :=
  ∀ r < n, ∑ c in Finset.range m, mget a r c * x c = 0

/-- Predicate: `x` solves the system carried by the augmented matrix (first `n` columns
against the last). -/
def isSol (a : Aug) (n : ℕ) (x : ℕ → ℚ) : Prop :=
  ∀ r < n, ∑ c in Finset.range n, mget a r c * x c = mget a r n

/-- Predicate: `x` is in the kernel of the coefficient part of the augmented matrix. -/
def isKer (a : Aug) (n : ℕ) (x : ℕ → ℚ) : Prop :=
  ∀ r < n, ∑ c in Finset.range n, mget a r c * x c = 0

/-- The solution vector extended with `-1` against the right-hand column. -/
def solVec (x : ℕ → ℚ) (n : ℕ) : ℕ → ℚ := fun c => if c = n then -1 else x c

theorem isSol_iff_rowsNull (a : Aug) (n : ℕ) (x : ℕ → ℚ) :
    isSol a n x ↔ rowsNull a n (n + 1) (solVec x n) := by
  unfold isSol rowsNull solVec
  refine forall_congr' (fun r => imp_congr_right (fun hr => ?_))
  rw [Finset.sum_range_succ, if_pos rfl]
  have : ∑ c in Finset.range n, mget a r c * (if c = n then -1 else x c) =
      ∑ c in Finset.range n, mget a r c * x c := by
    refine Finset.sum_congr rfl (fun c hc => ?_)
    rw [if_neg (by have := Finset.mem_range.mp hc; omega)]
  rw [this]
  constructor
  · intro h; rw [h]; ring
  · intro h; linarith

theorem isKer_iff_rowsNull (a : Aug) (n : ℕ) (x : ℕ → ℚ) :
    isKer a n x ↔ rowsNull a n n x := Iff.rfl

/-- Swapping two rows of the augmented matrix preserves `rowsNull`. -/
theorem rowsNull_swapRows {a : Aug} {n : ℕ} (hwf : wf a n) (i j : ℕ) (hi : i < n) (hj : j < n) :
    ∀ m x, rowsNull (swapRows a i j) n m x ↔ rowsNull a n m x := by
  intro m x
  have hrow : ∀ r, ∑ c in Finset.range m, mget (swapRows a i j) r c * x c =
      if r = j then ∑ c in Finset.range m, mget a i c * x c
      else if r = i then ∑ c in Finset.range m, mget a j c * x c
      else ∑ c in Finset.range m, mget a r c * x c := by
    intro r
    by_cases h1 : r = j
    · rw [if_pos h1]
      exact Finset.sum_congr rfl fun c _ => by
        rw [mget_swapRows hwf i j hi hj, if_pos h1]
    · rw [if_neg h1]
      by_cases h2 : r = i
      · rw [if_pos h2]
        exact Finset.sum_congr rfl fun c _ => by
          rw [mget_swapRows hwf i j hi hj, if_neg h1, if_pos h2]
      · rw [if_neg h2]
        exact Finset.sum_congr rfl fun c _ => by
          rw [mget_swapRows hwf i j hi hj, if_neg h1, if_neg h2]
  constructor
  · intro h r hr
    by_cases hrj : r = j
    · have hthis := h i hi
      rw [hrow i] at hthis
      by_cases hij : i = j
      · rw [if_pos hij] at hthis
        rw [hrj, ← hij]
        exact hthis
      · rw [if_neg hij, if_pos rfl] at hthis
        rw [hrj]
        exact hthis
    · by_cases hri : r = i
      · have hthis := h j hj
        rw [hrow j, if_pos rfl] at hthis
        rw [hri]
        exact hthis
      · have hthis := h r hr
        rw [hrow r, if_neg hrj, if_neg hri] at hthis
        exact hthis
  · intro h r hr
    rw [hrow r]
    split_ifs with h1 h2
    · exact h i hi
    · exact h j hj
    · exact h r hr

/-- Subtracting `t` times a pivot row `p` from a single row `r0` preserves
`rowsNull` in both directions. -/
theorem rowsNull_rowop (a E : Aug) (n r0 p : ℕ) (t : ℚ) (hr0 : r0 < n) (hp : p < n)
    (hne : p ≠ r0)
    (hsame : ∀ r c, r ≠ r0 → mget E r c = mget a r c)
    (hmod : ∀ c, mget E r0 c = mget a r0 c - t * mget a p c) :
    ∀ m x, rowsNull E n m x ↔ rowsNull a n m x := by
  intro m x
  have hsum : ∀ r, r ≠ r0 → ∑ c in Finset.range m, mget E r c * x c =
      ∑ c in Finset.range m, mget a r c * x c :=
    fun r hr => Finset.sum_congr rfl (fun c _ => by rw [hsame r c hr])
  have hsum0 : ∑ c in Finset.range m, mget E r0 c * x c =
      ∑ c in Finset.range m, mget a r0 c * x c -
        t * ∑ c in Finset.range m, mget a p c * x c := by
    rw [Finset.mul_sum, ← Finset.sum_sub_distrib]
    refine Finset.sum_congr rfl (fun c _ => by rw [hmod c]; ring)
  constructor
  · intro h r hr
    by_cases hrr : r = r0
    · have h0 := h r0 hr0
      have hpz := h p hp
      rw [hsum p hne] at hpz
      rw [hsum0, hpz] at h0
      rw [hrr]
      linarith
    · rw [← hsum r hrr]
      exact h r hr
  · intro h r hr
    by_cases hrr : r = r0
    · rw [hrr, hsum0, h r0 hr0, h p hp]
      ring
    · rw [hsum r hrr]
      exact h r hr

/-- The inner column loop `for col2 in range(lo, size+1)` that subtracts
`t` times pivot row `p` from target row `tr`, entry by entry: it only
changes row `tr`, and on columns `lo … n` it performs exactly the row
subtraction. -/
theorem subRow_fold (b : Aug) (n tr p lo : ℕ) (t : ℚ) (hwf : wf b n) (htr : tr < n)
    (hne : p ≠ tr) (hlo : lo ≤ n + 1) :
    wf (forRange lo (n + 1)
        (fun s col2 => setE s tr col2 (mget s tr col2 - mget s p col2 * t)) b) n ∧
      (∀ r c, r ≠ tr → mget (forRange lo (n + 1)
        (fun s col2 => setE s tr col2 (mget s tr col2 - mget s p col2 * t)) b) r c = mget b r c) ∧
      (∀ c, lo ≤ c → c ≤ n → mget (forRange lo (n + 1)
        (fun s col2 => setE s tr col2 (mget s tr col2 - mget s p col2 * t)) b) tr c =
          mget b tr c - mget b p c * t) ∧
      (∀ c, c < lo ∨ n + 1 ≤ c → mget (forRange lo (n + 1)
        (fun s col2 => setE s tr col2 (mget s tr col2 - mget s p col2 * t)) b) tr c =
          mget b tr c) := by
  have key := @forRange_inv Aug lo (n + 1)
    (fun s col2 => setE s tr col2 (mget s tr col2 - mget s p col2 * t)) b
    (fun i s => wf s n ∧ (∀ r c, r ≠ tr → mget s r c = mget b r c) ∧
      (∀ c, lo ≤ c → c < i → c ≤ n → mget s tr c = mget b tr c - mget b p c * t) ∧
      (∀ c, c < lo ∨ i ≤ c → mget s tr c = mget b tr c))
    ⟨hwf, fun _ _ _ => rfl, fun c _ hc _ => absurd hc (by omega),
      fun _ _ => rfl⟩ ?_ hlo
  · refine ⟨key.1, key.2.1, fun c h1 h2 => key.2.2.1 c h1 (by omega) h2, fun c hc => ?_⟩
    rcases hc with hc | hc
    · exact key.2.2.2 c (Or.inl hc)
    · exact key.2.2.2 c (Or.inr hc)
  · rintro i s hlo_i hi ⟨hwfs, hother, hdone, hpending⟩
    have hread_tr : mget s tr i = mget b tr i := hpending i (Or.inr (le_refl i))
    have hread_p : mget s p i = mget b p i := hother p i hne
    refine ⟨wf_setE hwfs tr i _, ?_, ?_, ?_⟩
    · intro r c hr
      rw [mget_setE_of_ne_row _ _ _ _ _ _ hr]
      exact hother r c hr
    · intro c h1 h2 h3
      rcases Nat.lt_or_ge c i with hci | hci
      · rw [mget_setE_of_ne_col _ _ _ _ _ _ (by omega)]
        exact hdone c h1 hci h3
      · have hceq : c = i := by omega
        subst hceq
        rw [mget_setE_same hwfs tr c _ htr (by omega), hread_tr, hread_p]
    · intro c hc
      rw [mget_setE_of_ne_col _ _ _ _ _ _ (by omega)]
      refine hpending c ?_
      rcases hc with hc | hc
      · exact Or.inl hc
      · exact Or.inr (by omega)

/-- What forward elimination of the rows below `(row, col)` does, given a
nonzero pivot entry and a pivot row that vanishes left of `col`: rows
`0 … row` and `n …` are untouched, the eliminated rows get an exact zero in
column `col` and keep their entries left of `col`, and the solution set and
kernel (`rowsNull` for every width) are preserved. -/
theorem eliminateBelow_facts (b : Aug) (n row col : ℕ) (hwf : wf b n) (hrow : row < n)
    (hcol : col ≤ n) (hnz : mget b row col ≠ 0) (hpz : ∀ c, c < col → mget b row c = 0) :
    wf (eliminateBelow b n row col) n ∧
      (∀ r c, r ≤ row ∨ n ≤ r → mget (eliminateBelow b n row col) r c = mget b r c) ∧
      (∀ r, row < r → r < n → mget (eliminateBelow b n row col) r col = 0) ∧
      (∀ r c, row < r → r < n → c < col → mget (eliminateBelow b n row col) r c = mget b r c) ∧
      (∀ m x, rowsNull (eliminateBelow b n row col) n m x ↔ rowsNull b n m x) := by
  unfold eliminateBelow
  have key := @forRange_inv Aug (row + 1) n
    (fun b' row2 =>
      let ratio := mget b' row2 col / mget b' row col
      let b1 := setE b' row2 col 0
      forRange (col + 1) (n + 1)
        (fun c col2 => setE c row2 col2 (mget c row2 col2 - mget c row col2 * ratio)) b1)
    b
    (fun i b' => wf b' n ∧ (∀ r c, r ≤ row ∨ i ≤ r → mget b' r c = mget b r c) ∧
      (∀ r, row < r → r < i → mget b' r col = 0 ∧ ∀ c, c < col → mget b' r c = mget b r c) ∧
      (∀ m x, rowsNull b' n m x ↔ rowsNull b n m x))
    ⟨hwf, fun _ _ _ => rfl, fun r h1 h2 => absurd h2 (by omega), fun _ _ => Iff.rfl⟩
    ?_ (by omega)
  · exact ⟨key.1, fun r c hr => key.2.1 r c (by rcases hr with h | h; exacts [Or.inl h, Or.inr (by omega)]),
      fun r h1 h2 => (key.2.2.1 r h1 h2).1,
      fun r c h1 h2 hc => (key.2.2.1 r h1 h2).2 c hc,
      key.2.2.2⟩
  · rintro i b' hlo_i hi ⟨hwfb, huntouched, hdonerows, hequiv⟩
    have hrownz : mget b' row col = mget b row col := huntouched row col (Or.inl (le_refl row))
    have hi_b : mget b' i col = mget b i col := huntouched i col (Or.inr (le_refl i))
    set ratio := mget b' i col / mget b' row col with hratio
    have hwfb1 : wf (setE b' i col 0) n := wf_setE hwfb i col 0
    have hb1_same : ∀ r c, r ≠ i → mget (setE b' i col 0) r c = mget b' r c :=
      fun r c hr => mget_setE_of_ne_row _ _ _ _ _ _ hr
    have hb1_col : mget (setE b' i col 0) i col = 0 :=
      mget_setE_same hwfb i col 0 (by omega) (by omega)
    have hb1_ne : ∀ c, c ≠ col → mget (setE b' i col 0) i c = mget b' i c :=
      fun c hc => mget_setE_of_ne_col _ _ _ _ _ _ hc
    obtain ⟨hFwf, hFsame, hFsub, hFkeep⟩ :=
      subRow_fold (setE b' i col 0) n i row (col + 1) ratio hwfb1 (by omega) (by omega) (by omega)
    refine ⟨hFwf, ?_, ?_, ?_⟩
    · intro r c hr
      have hri : r ≠ i := by omega
      rw [hFsame r c hri, hb1_same r c hri]
      exact huntouched r c (by rcases hr with h | h; exacts [Or.inl h, Or.inr (by omega)])
    · intro r h1 h2
      by_cases hri : r = i
      · subst hri
        constructor
        · rw [hFkeep col (Or.inl (by omega))]
          exact hb1_col
        · intro c hc
          rw [hFkeep c (Or.inl (by omega)), hb1_ne c (by omega)]
          exact huntouched r c (Or.inr (le_refl r))
      · have h2' : r < i := by omega
        obtain ⟨hz, hkeep⟩ := hdonerows r h1 h2'
        constructor
        · rw [hFsame r col hri, hb1_same r col hri]
          exact hz
        · intro c hc
          rw [hFsame r c hri, hb1_same r c hri]
          exact hkeep c hc
    · intro m x
      rw [← hequiv m x]
      refine rowsNull_rowop b' _ n i row ratio (by omega) hrow (by omega) ?_ ?_ m x
      · intro r c hr
        rw [hFsame r c hr, hb1_same r c hr]
      · intro c
        rcases Nat.lt_or_ge c (col + 1) with hc | hc
        · rcases Nat.lt_or_ge c col with hc' | hc'
          · rw [hFkeep c (Or.inl hc), hb1_ne c (by omega),
              huntouched row c (Or.inl (le_refl row)), hpz c hc']
            ring
          · have hceq : c = col := by omega
            subst hceq
            rw [hFkeep c (Or.inl (by omega)), hb1_col, hratio, hrownz, hi_b,
              div_mul_cancel₀ _ hnz]
            ring
        · rcases Nat.lt_or_ge c (n + 1) with hcn | hcn
          · rw [hFsub c hc (by omega), hb1_ne c (by omega), hb1_same row c (by omega)]
            ring
          · rw [hFkeep c (Or.inr hcn), hb1_ne c (by omega), mget_of_col_ge hwfb i c (by omega),
              mget_of_col_ge hwfb row c (by omega)]
            ring

/-- The row picked by partial pivoting lies in `[col, size)` and carries the
maximal absolute value of column `col` there. -/
theorem pivotRow_facts (a : Aug) (col size : ℕ) (h : col < size) :
    col ≤ pivotRow a col size ∧ pivotRow a col size < size ∧
      ∀ r, col ≤ r → r < size → |mget a r col| ≤ |mget a (pivotRow a col size) col| := by
  unfold pivotRow
  have key := @forRange_inv (ℚ × ℕ) (col + 1) size
    (fun best r2 => if |mget a r2 col| ≥ best.1 then (|mget a r2 col|, r2) else best)
    ((|mget a col col|, col) : ℚ × ℕ)
    (fun i best => best.1 = |mget a best.2 col| ∧ col ≤ best.2 ∧ best.2 < i ∧
      ∀ r, col ≤ r → r < i → |mget a r col| ≤ best.1)
    ⟨rfl, le_refl col, by omega, fun r h1 h2 => by
      have : r = col := by omega
      subst this; exact le_refl _⟩
    ?_ (by omega)
  · obtain ⟨habs, hlo, hhi, hmax⟩ := key
    refine ⟨hlo, hhi, fun r h1 h2 => ?_⟩
    have := hmax r h1 h2
    rw [habs] at this
    exact this
  · rintro i best hlo_i hi ⟨habs, hlo, hhi, hmax⟩
    dsimp only
    by_cases hge : |mget a i col| ≥ best.1
    · rw [if_pos hge]
      refine ⟨rfl, by omega, by omega, fun r h1 h2 => ?_⟩
      rcases Nat.lt_or_ge r i with hr | hr
      · exact le_trans (hmax r h1 hr) hge
      · have : r = i := by omega
        subst this; exact le_refl _
    · rw [if_neg hge]
      refine ⟨habs, hlo, by omega, fun r h1 h2 => ?_⟩
      rcases Nat.lt_or_ge r i with hr | hr
      · exact hmax r h1 hr
      · have : r = i := by omega
        subst this
        exact le_of_not_le hge

/-! ### A kernel vector when a pivot column is entirely zero -/

/-- Back-substituted kernel witness: starting from the unit vector at index
`k`, solve the upper-triangular rows `k-1 … 0` downwards. -/
def kvec (a : Aug) (k : ℕ) : ℕ → ℚ :=
  ((List.range k).reverse).foldl
    (fun x i => Function.update x i (-(∑ j in Finset.Ioc i k, mget a i j * x j) / mget a i i))
    (fun j => if j = k then 1 else 0)

theorem kvec_fold_props (a : Aug) (n k : ℕ) (hkn : k < n)
    (htri : ∀ r c, c < k → c < r → r < n → mget a r c = 0)
    (hdnz : ∀ i < k, mget a i i ≠ 0) :
    ∀ m, m ≤ k → ∀ x : ℕ → ℚ, (∀ j, k < j → x j = 0) →
      (∀ j, m ≤ j →
        ((List.range m).reverse).foldl
          (fun x i => Function.update x i (-(∑ j in Finset.Ioc i k, mget a i j * x j) / mget a i i))
          x j = x j) ∧
      (∀ i < m, ∑ c in Finset.range n, mget a i c *
        ((List.range m).reverse).foldl
          (fun x i => Function.update x i (-(∑ j in Finset.Ioc i k, mget a i j * x j) / mget a i i))
          x c = 0) := by
  intro m
  induction m with
  | zero =>
    intro _ x hsupp
    rw [List.range_zero, List.reverse_nil]
    exact ⟨fun _ _ => rfl, fun i hi => absurd hi (by omega)⟩
  | succ m ih =>
    intro hm x hsupp
    have hrev : (List.range (m + 1)).reverse = m :: (List.range m).reverse := by
      rw [List.range_succ, List.reverse_append]
      rfl
    rw [hrev, List.foldl_cons]
    set v := -(∑ j in Finset.Ioc m k, mget a m j * x j) / mget a m m with hv
    set x' := Function.update x m v with hx'
    have hsupp' : ∀ j, k < j → x' j = 0 := by
      intro j hj
      rw [hx', Function.update_noteq (by omega)]
      exact hsupp j hj
    obtain ⟨hfrozen, hrows⟩ := ih (by omega) x' hsupp'
    constructor
    · intro j hj
      rw [hfrozen j (by omega), hx', Function.update_noteq (by omega)]
    · intro i hi
      rcases Nat.lt_or_ge i m with him | him
      · exact hrows i him
      · have hieq : i = m := by omega
        subst hieq
        have hterm : ∀ c ∈ Finset.range n, c ∉ Finset.Icc i k →
            mget a i c *
              ((List.range i).reverse).foldl
                (fun x i => Function.update x i
                  (-(∑ j in Finset.Ioc i k, mget a i j * x j) / mget a i i)) x' c = 0 := by
          intro c _ hc
          rw [Finset.mem_Icc, not_and_or] at hc
          rcases hc with hc | hc
          · rw [htri i c (by omega) (by omega) (by omega)]
            ring
          · rw [hfrozen c (by omega), hsupp' c (by omega)]
            ring
        rw [← Finset.sum_subset (by
            intro z hz
            rw [Finset.mem_Icc] at hz
            rw [Finset.mem_range]
            omega) hterm]
        rw [Finset.Icc_eq_cons_Ioc (by omega), Finset.sum_cons]
        have hfix : ∀ c ∈ Finset.Ioc i k,
            mget a i c *
              ((List.range i).reverse).foldl
                (fun x i => Function.update x i
                  (-(∑ j in Finset.Ioc i k, mget a i j * x j) / mget a i i)) x' c =
              mget a i c * x c := by
          intro c hc
          rw [Finset.mem_Ioc] at hc
          rw [hfrozen c (by omega), hx', Function.update_noteq (by omega)]
        rw [Finset.sum_congr rfl hfix, hfrozen i (le_refl i), hx', Function.update_same, hv]
        have hnz := hdnz i (by omega)
        field_simp
        ring

/-- The kernel vector built by `kvec` when column `k` of rows `k … n-1` is
entirely zero: it is `1` at `k` and annihilated by every row of the
coefficient part. -/
theorem kvec_props (a : Aug) (n k : ℕ) (hkn : k < n)
    (htri : ∀ r c, c < k → c < r → r < n → mget a r c = 0)
    (hdnz : ∀ i < k, mget a i i ≠ 0)
    (hz : ∀ r, k ≤ r → r < n → mget a r k = 0) :
    kvec a k k = 1 ∧ (∀ j, k < j → kvec a k j = 0) ∧ isKer a n (kvec a k) := by
  obtain ⟨hfrozen, hrows⟩ := kvec_fold_props a n k hkn htri hdnz k (le_refl k)
    (fun j => if j = k then 1 else 0) (fun j hj => if_neg (by omega))
  have hk1 : kvec a k k = 1 := by
    unfold kvec
    rw [hfrozen k (le_refl k)]
    simp
  have hhigh : ∀ j, k < j → kvec a k j = 0 := by
    intro j hj
    unfold kvec
    rw [hfrozen j (by omega)]
    exact if_neg (by omega)
  refine ⟨hk1, hhigh, ?_⟩
  intro r hr
  rcases Nat.lt_or_ge r k with hrk | hrk
  · exact hrows r hrk
  · refine Finset.sum_eq_zero (fun c hc => ?_)
    rcases lt_trichotomy c k with hck | hck | hck
    · rw [htri r c hck (by omega) hr]
      ring
    · subst hck
      rw [hz r hrk hr]
      ring
    · rw [hhigh c hck]
      ring

/-- Main invariant of the forward-elimination loop, under injectivity of the
coefficient matrix: starting at cursor `(k, k)` with the first `k` columns in
echelon form, the loop runs to completion producing an upper-triangular
matrix with nonzero diagonal and the same solution set and kernel.  In
particular the zero-pivot column-skip branch is never taken. -/
theorem elim_main : ∀ (gas k : ℕ) (a : Aug) (n : ℕ), n ≤ gas + k → wf a n →
    (∀ r c, c < k → c < r → r < n → mget a r c = 0) →
    (∀ i < k, mget a i i ≠ 0) →
    (∀ x, isKer a n x → ∀ c < n, x c = 0) →
    wf (elimGas gas a n k k) n ∧
      (∀ r c, c < r → r < n → mget (elimGas gas a n k k) r c = 0) ∧
      (∀ i < n, mget (elimGas gas a n k k) i i ≠ 0) ∧
      (∀ m x, rowsNull (elimGas gas a n k k) n m x ↔ rowsNull a n m x) := by
  intro gas
  induction gas with
  | zero =>
    intro k a n hnk hwf htri hdnz _
    exact ⟨hwf, fun r c h1 h2 => htri r c (by omega) h1 h2,
      fun i hi => hdnz i (by omega), fun m x => Iff.rfl⟩
  | succ gas ih =>
    intro k a n hnk hwf htri hdnz hker
    by_cases hkn : k < n
    · obtain ⟨hp1, hp2, hpmax⟩ := pivotRow_facts a k n hkn
      set p := pivotRow a k n with hp
      have heq : elimGas (gas + 1) a n k k =
          if k < n ∧ k < n then
            (if mget a p k = 0 then elimGas gas a n k (k + 1)
             else elimGas gas (eliminateBelow (swapRows a k p) n k k) n (k + 1) (k + 1))
          else a := rfl
      rw [heq, if_pos ⟨hkn, hkn⟩]
      by_cases hz : mget a p k = 0
      · exfalso
        have hcol0 : ∀ r, k ≤ r → r < n → mget a r k = 0 := by
          intro r h1 h2
          have h0 := hpmax r h1 h2
          rw [hz, abs_zero] at h0
          exact abs_nonpos_iff.mp h0
        obtain ⟨hk1, _, hkker⟩ := kvec_props a n k hkn htri hdnz hcol0
        have hzero := hker (kvec a k) hkker k hkn
        rw [hk1] at hzero
        exact one_ne_zero hzero
      · rw [if_neg hz]
        have hwfs := wf_swapRows hwf k p hkn hp2
        have hswap_read := mget_swapRows hwf k p hkn hp2
        have hs_k : ∀ c, mget (swapRows a k p) k c = mget a p c := by
          intro c
          rw [hswap_read k c]
          by_cases hkp : k = p
          · rw [if_pos hkp, hkp]
          · rw [if_neg hkp, if_pos rfl]
        have hs_p : ∀ c, mget (swapRows a k p) p c = mget a k c := by
          intro c
          rw [hswap_read p c, if_pos rfl]
        have hs_other : ∀ r c, r ≠ k → r ≠ p → mget (swapRows a k p) r c = mget a r c := by
          intro r c h1 h2
          rw [hswap_read r c, if_neg h2, if_neg h1]
        have htris : ∀ r c, c < k → c < r → r < n → mget (swapRows a k p) r c = 0 := by
          intro r c h1 h2 h3
          by_cases hrp : r = p
          · rw [hrp, hs_p]
            exact htri k c h1 h1 hkn
          · by_cases hrk : r = k
            · rw [hrk, hs_k]
              exact htri p c h1 (by omega) hp2
            · rw [hs_other r c hrk hrp]
              exact htri r c h1 h2 h3
        have hdnzs : ∀ i < k, mget (swapRows a k p) i i ≠ 0 := by
          intro i hi
          rw [hs_other i i (by omega) (by omega)]
          exact hdnz i hi
        have hskk : mget (swapRows a k p) k k ≠ 0 := by
          rw [hs_k]
          exact hz
        have hspz : ∀ c, c < k → mget (swapRows a k p) k c = 0 := by
          intro c hc
          rw [hs_k]
          exact htri p c hc (by omega) hp2
        have hequivs := rowsNull_swapRows hwf k p hkn hp2
        obtain ⟨hwfE, huntouch, hzeros, hkeep, hequivE⟩ :=
          eliminateBelow_facts (swapRows a k p) n k k hwfs hkn (by omega) hskk hspz
        have htriE : ∀ r c, c < k + 1 → c < r → r < n →
            mget (eliminateBelow (swapRows a k p) n k k) r c = 0 := by
          intro r c h1 h2 h3
          rcases Nat.lt_or_ge r (k + 1) with hr | hr
          · rw [huntouch r c (Or.inl (by omega))]
            exact htris r c (by omega) h2 h3
          · rcases Nat.lt_or_ge c k with hc | hc
            · rw [hkeep r c (by omega) h3 hc]
              exact htris r c hc h2 h3
            · have hck : c = k := by omega
              subst hck
              exact hzeros r (by omega) h3
        have hdnzE : ∀ i < k + 1, mget (eliminateBelow (swapRows a k p) n k k) i i ≠ 0 := by
          intro i hi
          rw [huntouch i i (Or.inl (by omega))]
          rcases Nat.lt_or_ge i k with h | h
          · exact hdnzs i h
          · have hik : i = k := by omega
            subst hik
            exact hskk
        have hkerE : ∀ x, isKer (eliminateBelow (swapRows a k p) n k k) n x → ∀ c < n, x c = 0 := by
          intro x hx
          refine hker x ?_
          rw [isKer_iff_rowsNull] at hx ⊢
          rw [← hequivs n x, ← hequivE n x]
          exact hx
        obtain ⟨hwfF, htriF, hdnzF, hequivF⟩ :=
          ih (k + 1) (eliminateBelow (swapRows a k p) n k k) n (by omega) hwfE htriE hdnzE hkerE
        refine ⟨hwfF, htriF, hdnzF, fun m x => ?_⟩
        rw [hequivF m x, hequivE m x, hequivs m x]
    · have heq : elimGas (gas + 1) a n k k =
          if k < n ∧ k < n then
            (if mget a (pivotRow a k n) k = 0 then elimGas gas a n k (k + 1)
             else elimGas gas (eliminateBelow (swapRows a k (pivotRow a k n)) n k k) n
               (k + 1) (k + 1))
          else a := rfl
      rw [heq, if_neg (by tauto)]
      exact ⟨hwf, fun r c h1 h2 => htri r c (by omega) h1 h2,
        fun i hi => hdnz i (by omega), fun m x => Iff.rfl⟩

/-- Back substitution on an upper-triangular matrix with nonzero diagonal
succeeds and produces a diagonal matrix with the same diagonal and the same
solution set. -/
theorem backSubst_main (a : Aug) (n : ℕ) (hwf : wf a n)
    (htri : ∀ r c, c < r → r < n → mget a r c = 0)
    (hdnz : ∀ i < n, mget a i i ≠ 0) :
    ∃ B, backSubst a n = some B ∧ wf B n ∧
      (∀ r c, r < n → c < n → r ≠ c → mget B r c = 0) ∧
      (∀ d, mget B d d = mget a d d) ∧
      (∀ m x, rowsNull B n m x ↔ rowsNull a n m x) := by
  unfold backSubst
  rcases Nat.lt_or_ge n 1 with hn | hn
  · refine ⟨a, by rw [forRangeM_empty _ _ _ _ (by omega)], hwf, ?_, fun _ => rfl, fun _ _ => Iff.rfl⟩
    intro r c h1 h2 h3
    omega
  · have key := @forRangeM_inv Aug 1 n
      (fun b col =>
        forRangeM 0 col
          (fun b2 row =>
            if mget b2 col col = 0 then none
            else
              let ratio := mget b2 row col / mget b2 col col
              some (forRange col (n + 1)
                (fun b3 col2 => setE b3 row col2 (mget b3 row col2 - mget b3 col col2 * ratio)) b2))
          b)
      a
      (fun col b => wf b n ∧ (∀ r c, c < r → r < n → mget b r c = 0) ∧
        (∀ d, mget b d d = mget a d d) ∧
        (∀ c' r, 1 ≤ c' → c' < col → r < c' → mget b r c' = 0) ∧
        (∀ m x, rowsNull b n m x ↔ rowsNull a n m x))
      ⟨hwf, htri, fun _ => rfl, fun c' r h1 h2 h3 => absurd h2 (by omega), fun _ _ => Iff.rfl⟩
      ?_ hn
    · obtain ⟨B, hB, hwfB, htriB, hdiagB, hupperB, hequivB⟩ := key
      refine ⟨B, hB, hwfB, ?_, hdiagB, hequivB⟩
      intro r c h1 h2 h3
      rcases Nat.lt_or_ge c r with hcr | hcr
      · exact htriB r c hcr h1
      · exact hupperB c r (by omega) h2 (by omega)
    · rintro col b hcol1 hcoln ⟨hwfb, htrib, hdiagb, hupperb, hequivb⟩
      have hinner := @forRangeM_inv Aug 0 col
        (fun b2 row =>
          if mget b2 col col = 0 then none
          else
            let ratio := mget b2 row col / mget b2 col col
            some (forRange col (n + 1)
              (fun b3 col2 => setE b3 row col2 (mget b3 row col2 - mget b3 col col2 * ratio)) b2))
        b
        (fun row b2 => wf b2 n ∧ (∀ r c, c < r → r < n → mget b2 r c = 0) ∧
          (∀ d, mget b2 d d = mget a d d) ∧
          (∀ c' r, 1 ≤ c' → c' < col → r < c' → mget b2 r c' = 0) ∧
          (∀ r, r < row → mget b2 r col = 0) ∧
          (∀ m x, rowsNull b2 n m x ↔ rowsNull a n m x))
        ⟨hwfb, htrib, hdiagb, hupperb, fun r hr => absurd hr (by omega), hequivb⟩
        ?_ (by omega)
      · obtain ⟨b', hb', hwf', htri', hdiag', hupper', hnew', hequiv'⟩ := hinner
        refine ⟨b', hb', hwf', htri', hdiag', ?_, hequiv'⟩
        intro c' r h1 h2 h3
        rcases Nat.lt_or_ge c' col with hc | hc
        · exact hupper' c' r h1 hc h3
        · have hceq : c' = col := by omega
          subst hceq
          exact hnew' r h3
      · rintro i b2 _ hicol ⟨hwf2, htri2, hdiag2, hupper2, hnew2, hequiv2⟩
        dsimp only
        have hdcol : mget b2 col col = mget a col col := hdiag2 col
        have hdnz2 : mget b2 col col ≠ 0 := by
          rw [hdcol]
          exact hdnz col hcoln
        rw [if_neg hdnz2]
        set t := mget b2 i col / mget b2 col col with ht
        obtain ⟨hFwf, hFsame, hFsub, hFkeep⟩ :=
          subRow_fold b2 n i col col t hwf2 (by omega) (by omega) (by omega)
        refine ⟨_, rfl, hFwf, ?_, ?_, ?_, ?_, ?_⟩
        · intro r c h1 h2
          by_cases hri : r = i
          · subst hri
            rw [hFkeep c (Or.inl (by omega))]
            exact htri2 r c h1 h2
          · rw [hFsame r c hri]
            exact htri2 r c h1 h2
        · intro d
          by_cases hdi : d = i
          · subst hdi
            rw [hFkeep d (Or.inl (by omega))]
            exact hdiag2 d
          · rw [hFsame d d hdi]
            exact hdiag2 d
        · intro c' r h1 h2 h3
          by_cases hri : r = i
          · subst hri
            rw [hFkeep c' (Or.inl (by omega))]
            exact hupper2 c' r h1 h2 h3
          · rw [hFsame r c' hri]
            exact hupper2 c' r h1 h2 h3
        · intro r hr
          rcases Nat.lt_or_ge r i with hri | hri
          · rw [hFsame r col (by omega)]
            exact hnew2 r hri
          · have hreq : r = i := by omega
            subst hreq
            rw [hFsub col (le_refl col) (by omega), ht, mul_comm,
              div_mul_cancel₀ _ hdnz2]
            ring
        · intro m x
          rw [← hequiv2 m x]
          refine rowsNull_rowop b2 _ n i col t (by omega) hcoln (by omega) ?_ ?_ m x
          · intro r c hr
            rw [hFsame r c hr]
          · intro c
            rcases Nat.lt_or_ge c col with hc | hc
            · rw [hFkeep c (Or.inl hc), htri2 col c hc hcoln]
              ring
            · rcases Nat.lt_or_ge c (n + 1) with hcn | hcn
              · rw [hFsub c hc (by omega)]
                ring
              · rw [hFkeep c (Or.inr hcn), mget_of_col_ge hwf2 col c (by omega)]
                ring

/-- Extraction succeeds on a nonzero diagonal and returns the rounded
quotients. -/
theorem extractSol_of_dnz (B : Aug) (n : ℕ) (hdnz : ∀ r < n, mget B r r ≠ 0) :
    extractSol B n =
      some ((List.range n).map (fun r => [round10 (mget B r n / mget B r r)])) := by
  unfold extractSol
  exact mapM_eq_some_map _ _ _
    (fun r hr => by rw [if_neg (hdnz r (List.mem_range.mp hr))])

/-! ### The initial augmented matrix -/

theorem wf_toAug (A b : List (List ℚ)) (n : ℕ) : wf (toAug A b n) n := by
  constructor
  · rw [toAug, List.length_map, List.length_range]
  · intro row hrow
    rw [toAug] at hrow
    obtain ⟨r, _, rfl⟩ := List.mem_map.mp hrow
    rw [List.length_append, List.length_map, List.length_range]
    rfl

theorem toAug_row (A b : List (List ℚ)) (n r : ℕ) (hr : r < n) :
    (toAug A b n).getD r [] =
      (List.range n).map (fun col => mget A r col) ++ [mget b r 0] := by
  unfold toAug
  rw [List.getD_eq_getElem?_getD, List.getElem?_map, List.getElem?_range hr]
  rfl

theorem mget_toAug_lt (A b : List (List ℚ)) (n r c : ℕ) (hr : r < n) (hc : c < n) :
    mget (toAug A b n) r c = mget A r c := by
  unfold mget
  rw [toAug_row A b n r hr, List.getD_eq_getElem?_getD,
    List.getElem?_append_left (by rw [List.length_map, List.length_range]; exact hc),
    List.getElem?_map, List.getElem?_range hc]
  rfl

theorem mget_toAug_last (A b : List (List ℚ)) (n r : ℕ) (hr : r < n) :
    mget (toAug A b n) r n = mget b r 0 := by
  unfold mget
  rw [toAug_row A b n r hr, List.getD_eq_getElem?_getD,
    List.getElem?_append_right (by rw [List.length_map, List.length_range]),
    List.length_map, List.length_range]
  simp [mget, List.getD_eq_getElem?_getD]

theorem isSol_toAug_iff (A b : List (List ℚ)) (n : ℕ) (x : ℕ → ℚ) :
    isSol (toAug A b n) n x ↔
      ∀ r < n, ∑ c in Finset.range n, mget A r c * x c = mget b r 0 := by
  unfold isSol
  refine forall_congr' (fun r => imp_congr_right (fun hr => ?_))
  rw [mget_toAug_last A b n r hr]
  refine Eq.congr_left (Finset.sum_congr rfl (fun c hc => ?_))
  rw [mget_toAug_lt A b n r c hr (Finset.mem_range.mp hc)]

theorem isKer_toAug_iff (A b : List (List ℚ)) (n : ℕ) (x : ℕ → ℚ) :
    isKer (toAug A b n) n x ↔
      ∀ r < n, ∑ c in Finset.range n, mget A r c * x c = 0 := by
  unfold isKer
  refine forall_congr' (fun r => imp_congr_right (fun hr => ?_))
  refine Eq.congr_left (Finset.sum_congr rfl (fun c hc => ?_))
  rw [mget_toAug_lt A b n r c hr (Finset.mem_range.mp hc)]

/-- Exact behaviour of `solve` on an injective (invertible) square system:
it succeeds, and the returned vector is exactly the unique rational solution
of `A·x = b`, each entry rounded to 10 decimal places. -/
theorem solve_exact (A b : List (List ℚ)) (n : ℕ) (hn : A.length = n)
    (hinj : ∀ x : ℕ → ℚ,
      (∀ r < n, ∑ c in Finset.range n, mget A r c * x c = 0) → ∀ c < n, x c = 0) :
    ∃ x : ℕ → ℚ,
      (∀ r < n, ∑ c in Finset.range n, mget A r c * x c = mget b r 0) ∧
      (∀ y : ℕ → ℚ, (∀ r < n, ∑ c in Finset.range n, mget A r c * y c = mget b r 0) →
        ∀ c < n, y c = x c) ∧
      solve A b = some ((List.range n).map (fun r => [round10 (x r)])) := by
  have hker0 : ∀ x, isKer (toAug A b n) n x → ∀ c < n, x c = 0 := by
    intro x hx
    exact hinj x ((isKer_toAug_iff A b n x).mp hx)
  obtain ⟨hwfR, htriR, hdnzR, hequivR⟩ :=
    elim_main n 0 (toAug A b n) n (by omega) (wf_toAug A b n)
      (fun r c h1 _ _ => absurd h1 (by omega)) (fun i hi => absurd hi (by omega)) hker0
  obtain ⟨B, hB, hwfB, hoffB, hdiagB, hequivB⟩ :=
    backSubst_main (elimGas n (toAug A b n) n 0 0) n hwfR htriR hdnzR
  have hdnzB : ∀ r < n, mget B r r ≠ 0 := by
    intro r hr
    rw [hdiagB r]
    exact hdnzR r hr
  refine ⟨fun r => mget B r n / mget B r r, ?_, ?_, ?_⟩
  · have hsolB : isSol B n (fun r => mget B r n / mget B r r) := by
      intro r hr
      rw [Finset.sum_eq_single_of_mem r (Finset.mem_range.mpr hr)]
      · rw [mul_comm, div_mul_cancel₀ _ (hdnzB r hr)]
      · intro c _ hc
        rw [hoffB r c hr (by
            rcases Finset.mem_range.mp (by assumption : c ∈ Finset.range n) with h
            exact h) (Ne.symm hc)]
        ring
    rw [← isSol_toAug_iff A b n]
    rw [isSol_iff_rowsNull] at hsolB ⊢
    rw [← hequivR _ _, ← hequivB _ _]
    exact hsolB
  · intro y hy
    have hsolB : isSol B n y := by
      rw [isSol_iff_rowsNull, hequivB _ _, hequivR _ _, ← isSol_iff_rowsNull]
      exact (isSol_toAug_iff A b n y).mpr hy
    intro c hc
    have hrow := hsolB c hc
    rw [Finset.sum_eq_single_of_mem c (Finset.mem_range.mpr hc)] at hrow
    · rw [eq_div_iff (hdnzB c hc), mul_comm]
      exact hrow
    · intro j hj hjc
      rw [hoffB c j hc (Finset.mem_range.mp hj) (Ne.symm hjc)]
      ring
  · show (backSubst (elimGas A.length (toAug A b A.length) A.length 0 0) A.length).bind
      (fun b' => extractSol b' A.length) =
      some ((List.range n).map (fun r => [round10 (mget B r n / mget B r r)]))
    rw [hn, hB]
    rw [Option.some_bind, extractSol_of_dnz B n hdnzB]

/-- A list of length one is the singleton of its first entry. -/
theorem eq_singleton_of_length_one (l : List ℚ) (h : l.length = 1) : l = [l.getD 0 0] := by
  match l, h with
  | [a], _ => rfl

/-- Claim C1, amended: for an invertible (here: injective) `n × n` system,
`solve` succeeds and returns exactly the unique rational solution of
`A·x = b`, each entry rounded to 10 decimal places.  (The original claim's
fixed `1e-9` residual tolerance is refuted by
`C1_counterexample_residual_tolerance`: the final rounding can move an entry
by up to `5·10⁻¹¹`, which the matrix can amplify arbitrarily.) -/
theorem C1_amended_solve_rounds_exact_solution (A b : List (List ℚ)) (n : ℕ)
    (hn1 : 1 ≤ n) (hA : A.length = n) (hArows : ∀ row ∈ A, row.length = n)
    (hb : b.length = n) (hbrows : ∀ row ∈ b, row.length = 1)
    (hinj : ∀ x : ℕ → ℚ,
      (∀ r < n, ∑ c in Finset.range n, mget A r c * x c = 0) → ∀ c < n, x c = 0) :
    ∃ x : ℕ → ℚ,
      (∀ r < n, ∑ c in Finset.range n, mget A r c * x c = mget b r 0) ∧
      (∀ y : ℕ → ℚ, (∀ r < n, ∑ c in Finset.range n, mget A r c * y c = mget b r 0) →
        ∀ c < n, y c = x c) ∧
      solve A b = some ((List.range n).map (fun r => [round10 (x r)])) :=
  solve_exact A b n hA hinj

section RationalDecideClaims

attribute [local semireducible] Rat.mul Rat.inv Rat.add Rat.sub

/-- Claim C1, counterexample: the invertible 1×1 system `[[10¹¹]]·x = [[1]]`
has exact solution `10⁻¹¹`, which `round(·, 10)` collapses to `0`; the
returned vector `[[0]]` violates the claimed elementwise `1e-9` residual
tolerance, since `|10¹¹·0 − 1| = 1`. -/
theorem C1_counterexample_residual_tolerance :
    solve [[(10 ^ 11 : ℚ)]] [[1]] = some [[0]] ∧
      (∀ x : ℕ → ℚ,
        (∀ r < 1, ∑ c in Finset.range 1, mget [[(10 ^ 11 : ℚ)]] r c * x c = 0) →
        ∀ c < 1, x c = 0) ∧
      ¬|(10 ^ 11 : ℚ) * 0 - 1| ≤ 1 / 10 ^ 9 := by
  refine ⟨by decide, ?_, by norm_num⟩
  intro x h c hc
  have hc0 : c = 0 := by omega
  subst hc0
  have h0 := h 0 (by omega)
  rw [Finset.sum_range_one] at h0
  have hm : mget [[(10 ^ 11 : ℚ)]] 0 0 = 10 ^ 11 := rfl
  rw [hm] at h0
  have : (10 ^ 11 : ℚ) ≠ 0 := by norm_num
  exact (mul_eq_zero.mp h0).resolve_left this

/-- Witness for the amended claim C1 at the system `[[2]]·x = [[8]]`. -/
theorem C1_amended_solve_rounds_exact_solution_witness :
    ((1 : ℕ) ≤ 1 ∧ [[(2 : ℚ)]].length = 1 ∧ (∀ row ∈ [[(2 : ℚ)]], row.length = 1) ∧
      [[(8 : ℚ)]].length = 1 ∧ (∀ row ∈ [[(8 : ℚ)]], row.length = 1)) ∧
    (∃ x : ℕ → ℚ,
      (∀ r < 1, ∑ c in Finset.range 1, mget [[(2 : ℚ)]] r c * x c = mget [[(8 : ℚ)]] r 0) ∧
      (∀ y : ℕ → ℚ,
        (∀ r < 1, ∑ c in Finset.range 1, mget [[(2 : ℚ)]] r c * y c = mget [[(8 : ℚ)]] r 0) →
        ∀ c < 1, y c = x c) ∧
      solve [[(2 : ℚ)]] [[(8 : ℚ)]] =
        some ((List.range 1).map (fun r => [round10 (x r)]))) := by
  refine ⟨⟨le_refl 1, rfl, by decide, rfl, by decide⟩, ?_⟩
  refine C1_amended_solve_rounds_exact_solution [[(2 : ℚ)]] [[(8 : ℚ)]] 1
    (le_refl 1) rfl (by decide) rfl (by decide) ?_
  intro x h c hc
  have hc0 : c = 0 := by omega
  subst hc0
  have h0 := h 0 (by omega)
  rw [Finset.sum_range_one] at h0
  have hm : mget [[(2 : ℚ)]] 0 0 = 2 := rfl
  rw [hm] at h0
  exact (mul_eq_zero.mp h0).resolve_left (by norm_num)

end RationalDecideClaims

/-! ### The identity matrix -/

/-- The `n × n` identity matrix as a list of rows. -/
def idMat (n : ℕ) : List (List ℚ) :=
  (List.range n).map (fun r => (List.range n).map (fun c => if r = c then 1 else 0))

theorem mget_idMat (n r c : ℕ) (hr : r < n) (hc : c < n) :
    mget (idMat n) r c = if r = c then 1 else 0 := by
  unfold idMat mget
  simp only [List.getD_eq_getElem?_getD]
  rw [List.getElem?_map, List.getElem?_range hr]
  simp only [Option.map_some', Option.getD_some]
  rw [List.getElem?_map, List.getElem?_range hc]
  rfl

theorem idMat_sum (n : ℕ) (x : ℕ → ℚ) (r : ℕ) (hr : r < n) :
    ∑ c in Finset.range n, mget (idMat n) r c * x c = x r := by
  rw [Finset.sum_eq_single_of_mem r (Finset.mem_range.mpr hr)]
  · rw [mget_idMat n r r hr hr, if_pos rfl, one_mul]
  · intro c hc hcr
    rw [mget_idMat n r c hr (Finset.mem_range.mp hc), if_neg (Ne.symm hcr)]
    ring

/-- Claim C3, amended: `solve(I, b) = b` holds for every vector all of whose
entries are exactly representable with 10 decimal places (fixed points of
`round10`) — in particular for integer vectors; it fails for entries finer
than `10⁻¹⁰` (see `C3_counterexample_identity_rounding`). -/
theorem C3_amended_identity_solve (n : ℕ) (hn : 1 ≤ n) (b : List (List ℚ))
    (hb : b.length = n) (hbrows : ∀ row ∈ b, row.length = 1)
    (hrep : ∀ r < n, round10 (mget b r 0) = mget b r 0) :
    solve (idMat n) b = some b := by
  have hlen : (idMat n).length = n := by
    rw [idMat, List.length_map, List.length_range]
  obtain ⟨x, hsol, huniq, hres⟩ := solve_exact (idMat n) b n hlen
    (fun x h c hc => by rw [← idMat_sum n x c hc]; exact h c hc)
  have hx : ∀ r < n, x r = mget b r 0 := by
    intro r hr
    rw [← idMat_sum n x r hr]
    exact hsol r hr
  rw [hres]
  congr 1
  refine List.ext_getElem? (fun i => ?_)
  rcases Nat.lt_or_ge i n with hi | hi
  · rw [List.getElem?_map, List.getElem?_range hi, Option.map_some',
      List.getElem?_eq_getElem (by omega)]
    have hrow : b[i] = [mget b i 0] := by
      have hmem : b[i] ∈ b := List.getElem_mem (by omega)
      have h1 : b[i].length = 1 := hbrows _ hmem
      have : mget b i 0 = b[i].getD 0 0 := by
        unfold mget
        rw [List.getD_eq_getElem?_getD b, List.getElem?_eq_getElem (by omega)]
        rfl
      rw [this]
      exact eq_singleton_of_length_one _ h1
    rw [hrow, hx i hi, hrep i hi]
  · rw [List.getElem?_map, List.getElem?_eq_none (by rw [List.length_range]; omega),
      List.getElem?_eq_none (by omega)]
    rfl

section RationalDecideClaims2

attribute [local semireducible] Rat.mul Rat.inv Rat.add Rat.sub

/-- Claim C3, counterexample: for `b = [[10⁻¹¹]]` the identity system returns
`[[0]] ≠ b` — the final `round(·, 10)` is applied even when the input is the
exact answer. -/
theorem C3_counterexample_identity_rounding :
    solve (idMat 1) [[(1 : ℚ) / 10 ^ 11]] ≠ some [[(1 : ℚ) / 10 ^ 11]] ∧
      solve (idMat 1) [[(1 : ℚ) / 10 ^ 11]] = some [[0]] := by
  refine ⟨by decide, by decide⟩

/-- Witness for the amended claim C3 at `n = 2`, `b = [[1], [2]]`. -/
theorem C3_amended_identity_solve_witness :
    ((1 : ℕ) ≤ 2 ∧ [[(1 : ℚ)], [2]].length = 2 ∧
      (∀ row ∈ [[(1 : ℚ)], [2]], row.length = 1) ∧
      (∀ r < 2, round10 (mget [[(1 : ℚ)], [2]] r 0) = mget [[(1 : ℚ)], [2]] r 0)) ∧
    solve (idMat 2) [[(1 : ℚ)], [2]] = some [[(1 : ℚ)], [2]] := by
  refine ⟨⟨by omega, rfl, by decide, by decide⟩, ?_⟩
  exact C3_amended_identity_solve 2 (by omega) [[(1 : ℚ)], [2]] rfl (by decide) (by decide)

end RationalDecideClaims2

/-! ### The Vandermonde-style matrix of `interpolate` -/

/-- The coefficient matrix built by `interpolate`: row `x_val`, column `col`
holds `(x_val + 1) ^ (n - col - 1)`. -/
def vmat (n : ℕ) : List (List ℚ) :=
  (List.range n).map
    (fun x_val : ℕ => (List.range n).map (fun col => ((x_val : ℚ) + 1) ^ (n - col - 1)))

theorem interpolate_eq (y_list : List ℤ) :
    interpolate y_list =
      (solve (vmat y_list.length) (y_list.map (fun y_val : ℤ => [(y_val : ℚ)]))).map
        (fun coeffs var =>
          ((List.range y_list.length).map
            (fun x_val =>
              pyRound (mget coeffs x_val 0) * var ^ (y_list.length - x_val - 1))).sum) := rfl

theorem vmat_length (n : ℕ) : (vmat n).length = n := by
  rw [vmat, List.length_map, List.length_range]

theorem mget_vmat (n r c : ℕ) (hr : r < n) (hc : c < n) :
    mget (vmat n) r c = ((r : ℚ) + 1) ^ (n - c - 1) := by
  unfold vmat mget
  simp only [List.getD_eq_getElem?_getD]
  rw [List.getElem?_map, List.getElem?_range hr]
  simp only [Option.map_some', Option.getD_some]
  rw [List.getElem?_map, List.getElem?_range hc]
  rfl

theorem list_range_map_sum {M : Type} [AddCommMonoid M] (n : ℕ) (f : ℕ → M) :
    ((List.range n).map f).sum = ∑ i in Finset.range n, f i := by
  induction n with
  | zero => rfl
  | succ n ih =>
    rw [List.range_succ, List.map_append, List.sum_append, Finset.sum_range_succ, ih]
    simp

/-- The Vandermonde-style matrix is injective: a polynomial of degree
`< n` vanishing at the `n` distinct points `1 … n` is zero. -/
theorem vmat_inj (n : ℕ) :
    ∀ x : ℕ → ℚ,
      (∀ r < n, ∑ c in Finset.range n, mget (vmat n) r c * x c = 0) → ∀ c < n, x c = 0 := by
  intro x hx c hc
  have hn1 : 1 ≤ n := by omega
  set p : Polynomial ℚ :=
    ∑ j in Finset.range n, Polynomial.C (x (n - 1 - j)) * Polynomial.X ^ j with hp
  have hdeg : p.natDegree ≤ n - 1 := by
    rw [hp]
    refine Polynomial.natDegree_sum_le_of_forall_le _ _ (fun j hj => ?_)
    exact le_trans (Polynomial.natDegree_C_mul_X_pow_le _ _)
      (by have := Finset.mem_range.mp hj; omega)
  have heval : ∀ r < n, p.eval ((r : ℚ) + 1) = 0 := by
    intro r hr
    rw [hp, Polynomial.eval_finset_sum]
    simp only [Polynomial.eval_mul, Polynomial.eval_C, Polynomial.eval_pow, Polynomial.eval_X]
    have hstep : ∑ j in Finset.range n, x (n - 1 - j) * ((r : ℚ) + 1) ^ j =
        ∑ j in Finset.range n, mget (vmat n) r (n - 1 - j) * x (n - 1 - j) := by
      refine Finset.sum_congr rfl (fun j hj => ?_)
      have hjn := Finset.mem_range.mp hj
      rw [mget_vmat n r (n - 1 - j) hr (by omega)]
      have hexp : n - (n - 1 - j) - 1 = j := by omega
      rw [hexp]
      ring
    rw [hstep, Finset.sum_range_reflect (fun c => mget (vmat n) r c * x c) n]
    exact hx r hr
  have hinjcast : Function.Injective (fun r : ℕ => ((r : ℚ) + 1)) := by
    intro r s hrs
    simp only [add_left_inj] at hrs
    exact_mod_cast hrs
  have hzero : p = 0 := by
    refine Polynomial.eq_zero_of_natDegree_lt_card_of_eval_eq_zero' p
      ((Finset.range n).image (fun r : ℕ => ((r : ℚ) + 1))) ?_ ?_
    · intro i hi
      obtain ⟨r, hr, rfl⟩ := Finset.mem_image.mp hi
      exact heval r (Finset.mem_range.mp hr)
    · rw [Finset.card_image_of_injective _ hinjcast, Finset.card_range]
      omega
  have hcoeff : p.coeff (n - 1 - c) = x c := by
    rw [hp, Polynomial.finset_sum_coeff]
    have hterm : ∀ j ∈ Finset.range n,
        (Polynomial.C (x (n - 1 - j)) * Polynomial.X ^ j).coeff (n - 1 - c) =
          if j = n - 1 - c then x (n - 1 - j) else 0 := by
      intro j hj
      rw [Polynomial.coeff_C_mul, Polynomial.coeff_X_pow]
      by_cases hjc : j = n - 1 - c
      · rw [if_pos (by omega), if_pos hjc, mul_one]
      · rw [if_neg (by omega), if_neg hjc, mul_zero]
    rw [Finset.sum_congr rfl hterm, Finset.sum_ite_eq' (Finset.range n) (n - 1 - c)
      (fun j => x (n - 1 - j))]
    rw [if_pos (Finset.mem_range.mpr (by omega))]
    congr 1
    omega
  rw [← hcoeff, hzero]
  rfl

/-- Totality: `interpolate` never fails, the Vandermonde system is always solvable. -/
theorem interpolate_total (y_list : List ℤ) : ∃ f, interpolate y_list = some f := by
  obtain ⟨x, _, _, hres⟩ := solve_exact (vmat y_list.length)
    (y_list.map (fun y_val : ℤ => [(y_val : ℚ)])) y_list.length (vmat_length _)
    (vmat_inj y_list.length)
  rw [interpolate_eq, hres]
  exact ⟨_, rfl⟩

theorem mget_map_singleton (y : List ℤ) (r : ℕ) (hr : r < y.length) :
    mget (y.map (fun y_val : ℤ => [(y_val : ℚ)])) r 0 = ((y.getD r 0 : ℤ) : ℚ) := by
  unfold mget
  simp only [List.getD_eq_getElem?_getD]
  rw [List.getElem?_map, List.getElem?_eq_getElem hr]
  rfl

theorem mget_range_map_singleton (n : ℕ) (g : ℕ → ℚ) (r : ℕ) (hr : r < n) :
    mget ((List.range n).map (fun r => [g r])) r 0 = g r := by
  unfold mget
  simp only [List.getD_eq_getElem?_getD]
  rw [List.getElem?_map, List.getElem?_range hr]
  rfl

/-- Exact interpolation: if the samples `y` are the values at `1 … n` of a
polynomial with integer coefficients `a₀ … a_{n-1}` (ascending), then
`interpolate y` succeeds and its evaluator computes that polynomial at every
integer. -/
theorem interpolate_exact_general (y a : List ℤ) (hlen : a.length = y.length)
    (hfit : ∀ i < y.length,
      ∑ j in Finset.range y.length, a.getD j 0 * ((i : ℤ) + 1) ^ j = y.getD i 0) :
    ∃ f, interpolate y = some f ∧
      ∀ x : ℤ, f x = ∑ j in Finset.range y.length, a.getD j 0 * x ^ j := by
  obtain ⟨xs, hsol, huniq, hres⟩ := solve_exact (vmat y.length)
    (y.map (fun y_val : ℤ => [(y_val : ℚ)])) y.length (vmat_length _) (vmat_inj y.length)
  have hhat : ∀ r < y.length,
      ∑ c in Finset.range y.length,
        mget (vmat y.length) r c * ((a.getD (y.length - 1 - c) 0 : ℤ) : ℚ) =
        mget (y.map (fun y_val : ℤ => [(y_val : ℚ)])) r 0 := by
    intro r hr
    rw [mget_map_singleton y r hr,
      ← Finset.sum_range_reflect
        (fun c => mget (vmat y.length) r c * ((a.getD (y.length - 1 - c) 0 : ℤ) : ℚ)) y.length]
    have hstep : ∀ j ∈ Finset.range y.length,
        mget (vmat y.length) r (y.length - 1 - j) *
          ((a.getD (y.length - 1 - (y.length - 1 - j)) 0 : ℤ) : ℚ) =
        ((a.getD j 0 * ((r : ℤ) + 1) ^ j : ℤ) : ℚ) := by
      intro j hj
      have hjn := Finset.mem_range.mp hj
      rw [mget_vmat y.length r (y.length - 1 - j) hr (by omega)]
      have h1 : y.length - (y.length - 1 - j) - 1 = j := by omega
      have h2 : y.length - 1 - (y.length - 1 - j) = j := by omega
      rw [h1, h2]
      push_cast
      ring
    rw [Finset.sum_congr rfl hstep, ← Int.cast_sum]
    rw [hfit r hr]
  have hxs : ∀ r < y.length, xs r = ((a.getD (y.length - 1 - r) 0 : ℤ) : ℚ) :=
    fun r hr => (huniq _ hhat r hr).symm
  rw [interpolate_eq, hres, Option.map_some']
  refine ⟨_, rfl, fun x => ?_⟩
  rw [list_range_map_sum]
  have hstep2 : ∀ r ∈ Finset.range y.length,
      pyRound (mget ((List.range y.length).map (fun r => [round10 (xs r)])) r 0) *
        x ^ (y.length - r - 1) =
      a.getD (y.length - 1 - r) 0 * x ^ (y.length - 1 - r) := by
    intro r hr
    have hrn := Finset.mem_range.mp hr
    rw [mget_range_map_singleton y.length (fun r => round10 (xs r)) r hrn, hxs r hrn,
      round10_intCast, pyRound_intCast]
    have h1 : y.length - r - 1 = y.length - 1 - r := by omega
    rw [h1]
  rw [Finset.sum_congr rfl hstep2,
    Finset.sum_range_reflect (fun j => a.getD j 0 * x ^ j) y.length]

/-- Claim C2: if some integer-coefficient polynomial of degree at most
`n − 1` passes through all `n` samples `(1, y₁) … (n, yₙ)`, the evaluator
returned by `interpolate` agrees with that polynomial at every integer —
exact recovery everywhere, not only at the sample points. -/
theorem C2_interpolate_recovers_integer_polynomial (y a : List ℤ) (hne : y ≠ [])
    (hlen : a.length = y.length)
    (hfit : ∀ i < y.length,
      ∑ j in Finset.range y.length, a.getD j 0 * ((i : ℤ) + 1) ^ j = y.getD i 0) :
    ∃ f, interpolate y = some f ∧
      ∀ x : ℤ, f x = ∑ j in Finset.range y.length, a.getD j 0 * x ^ j :=
  interpolate_exact_general y a hlen hfit

/-- Witness for claim C2: the samples `[1, 8]` of the line `7x − 6`
(coefficients `[-6, 7]`) are interpolated back to that line everywhere. -/
theorem C2_interpolate_recovers_integer_polynomial_witness :
    (([1, 8] : List ℤ) ≠ [] ∧ ([-6, 7] : List ℤ).length = ([1, 8] : List ℤ).length ∧
      (∀ i < ([1, 8] : List ℤ).length,
        ∑ j in Finset.range ([1, 8] : List ℤ).length,
          ([-6, 7] : List ℤ).getD j 0 * ((i : ℤ) + 1) ^ j = ([1, 8] : List ℤ).getD i 0)) ∧
    (∃ f, interpolate [1, 8] = some f ∧
      ∀ x : ℤ, f x = ∑ j in Finset.range ([1, 8] : List ℤ).length,
        ([-6, 7] : List ℤ).getD j 0 * x ^ j) := by
  refine ⟨⟨by decide, rfl, ?_⟩, ?_⟩
  · intro i hi
    have hi2 : i < 2 := hi
    interval_cases i <;> decide
  · refine C2_interpolate_recovers_integer_polynomial [1, 8] [-6, 7] (by decide) rfl ?_
    intro i hi
    have hi2 : i < 2 := hi
    interval_cases i <;> decide

/-! ### Termination of the scan loop in `solution` -/

theorem firstDisagree_mono (func poly : ℤ → ℤ) :
    ∀ (fuel fuel' : ℕ) (x v : ℤ), fuel ≤ fuel' →
      firstDisagree func poly fuel x = some v → firstDisagree func poly fuel' x = some v := by
  intro fuel
  induction fuel with
  | zero =>
    intro fuel' x v _ hs
    cases hs
  | succ fuel ih =>
    intro fuel' x v hle hs
    obtain ⟨f', rfl⟩ : ∃ f', fuel' = f' + 1 := ⟨fuel' - 1, by omega⟩
    unfold firstDisagree at hs ⊢
    by_cases hagree : func x = poly x
    · rw [if_pos hagree] at hs ⊢
      exact ih f' (x + 1) v (by omega) hs
    · rw [if_neg hagree] at hs ⊢
      exact hs

theorem firstDisagree_some_spec (func poly : ℤ → ℤ) :
    ∀ (fuel : ℕ) (x v : ℤ), firstDisagree func poly fuel x = some v →
      x ≤ v ∧ func v ≠ poly v := by
  intro fuel
  induction fuel with
  | zero =>
    intro x v hs
    cases hs
  | succ fuel ih =>
    intro x v hs
    unfold firstDisagree at hs
    by_cases hagree : func x = poly x
    · rw [if_pos hagree] at hs
      obtain ⟨h1, h2⟩ := ih (x + 1) v hs
      exact ⟨by omega, h2⟩
    · rw [if_neg hagree] at hs
      cases hs
      exact ⟨le_refl x, hagree⟩

theorem firstDisagree_isSome_of_exists (func poly : ℤ → ℤ) :
    ∀ (fuel : ℕ) (x z : ℤ), x ≤ z → z < x + fuel → func z ≠ poly z →
      ∃ v, firstDisagree func poly fuel x = some v := by
  intro fuel
  induction fuel with
  | zero =>
    intro x z h1 h2 _
    omega
  | succ fuel ih =>
    intro x z h1 h2 hne
    unfold firstDisagree
    by_cases hagree : func x = poly x
    · rw [if_pos hagree]
      have hxz : x ≠ z := by
        intro h
        rw [h] at hagree
        exact hne hagree
      exact ih (x + 1) z (by omega) (by omega) hne
    · rw [if_neg hagree]
      exact ⟨x, rfl⟩

/-- One scan terminates for some fuel exactly when the two functions
disagree at some integer `≥ 1`. -/
theorem firstDisagree_exists_fuel_iff (func poly : ℤ → ℤ) :
    (∃ fuel v, firstDisagree func poly fuel 1 = some v) ↔
      ∃ z : ℤ, 1 ≤ z ∧ poly z ≠ func z := by
  constructor
  · rintro ⟨fuel, v, hv⟩
    obtain ⟨h1, h2⟩ := firstDisagree_some_spec func poly fuel 1 v hv
    exact ⟨v, h1, fun h => h2 h.symm⟩
  · rintro ⟨z, hz1, hz2⟩
    obtain ⟨v, hv⟩ := firstDisagree_isSome_of_exists func poly z.toNat 1 z
      hz1 (by omega) (fun h => hz2 h.symm)
    exact ⟨z.toNat, v, hv⟩

/-- The summation fold over the interpolants succeeds exactly when every
scan does. -/
theorem scanFold_isSome_iff (func : ℤ → ℤ) (fuel : ℕ) :
    ∀ (polys : List (ℤ → ℤ)) (init : ℤ),
      (∃ r, polys.foldlM
        (fun ret poly => (firstDisagree func poly fuel 1).map (fun x_val => ret + poly x_val))
        init = some r) ↔
      ∀ poly ∈ polys, ∃ v, firstDisagree func poly fuel 1 = some v := by
  intro polys
  induction polys with
  | nil =>
    intro init
    simp [List.foldlM]
  | cons p l ih =>
    intro init
    rw [List.foldlM_cons]
    constructor
    · rintro ⟨r, hr⟩
      obtain ⟨s, hs, hrest⟩ := Option.bind_eq_some.mp hr
      obtain ⟨v, hv, _⟩ := Option.map_eq_some'.mp hs
      intro poly hpoly
      rcases List.mem_cons.mp hpoly with rfl | hmem
      · exact ⟨v, hv⟩
      · exact (ih _).mp ⟨r, hrest⟩ poly hmem
    · intro hall
      obtain ⟨v, hv⟩ := hall p (List.mem_cons_self p l)
      obtain ⟨r, hr⟩ := (ih (init + p v)).mpr (fun poly hmem => hall poly (List.mem_cons_of_mem p hmem))
      refine ⟨r, ?_⟩
      rw [hv]
      simpa using hr

/-- A uniform fuel bound for finitely many terminating scans. -/
theorem exists_uniform_fuel (func : ℤ → ℤ) :
    ∀ l : List (ℤ → ℤ),
      (∀ p ∈ l, ∃ fuel v, firstDisagree func p fuel 1 = some v) →
      ∃ fuel, ∀ p ∈ l, ∃ v, firstDisagree func p fuel 1 = some v := by
  intro l
  induction l with
  | nil => exact fun _ => ⟨0, fun p hp => absurd hp (List.not_mem_nil p)⟩
  | cons p l ih =>
    intro h
    obtain ⟨fp, vp, hp⟩ := h p (List.mem_cons_self p l)
    obtain ⟨fl, hl⟩ := ih (fun q hq => h q (List.mem_cons_of_mem p hq))
    refine ⟨max fp fl, fun q hq => ?_⟩
    rcases List.mem_cons.mp hq with rfl | hmem
    · exact ⟨vp, firstDisagree_mono func q fp (max fp fl) 1 vp (le_max_left _ _) hp⟩
    · obtain ⟨v, hv⟩ := hl q hmem
      exact ⟨v, firstDisagree_mono func q fl (max fp fl) 1 v (le_max_right _ _) hv⟩

theorem data_take (func : ℤ → ℤ) (order k : ℕ) (hk : k < order) :
    ((List.range order).map (fun i : ℕ => func ((i : ℤ) + 1))).take (k + 1) =
      (List.range (k + 1)).map (fun i : ℕ => func ((i : ℤ) + 1)) := by
  rw [← List.map_take, List.take_range]
  have hmin : min (k + 1) order = k + 1 := by omega
  rw [hmin]

/-- Claim C10: `solution(func, order)` terminates (for some scan fuel) if
and only if every one of the `order` interpolants disagrees with `func` at
some positive integer; if any interpolant agrees with `func` on all of
`1, 2, 3, …` the corresponding `while` scan never exits. -/
theorem C10_solution_terminates_iff (func : ℤ → ℤ) (order : ℕ) (hord : 1 ≤ order) :
    (∃ fuel r, solution func order fuel = some r) ↔
      (∀ k, 1 ≤ k → k ≤ order →
        ∃ f, interpolate ((List.range k).map (fun i : ℕ => func ((i : ℤ) + 1))) = some f ∧
          ∃ z : ℤ, 1 ≤ z ∧ f z ≠ func z) := by
  set g : ℕ → (ℤ → ℤ) := fun k =>
    Classical.choose (interpolate_total ((List.range (k + 1)).map (fun i : ℕ => func ((i : ℤ) + 1))))
    with hg
  have hgspec : ∀ k, interpolate ((List.range (k + 1)).map (fun i : ℕ => func ((i : ℤ) + 1))) =
      some (g k) := fun k =>
    Classical.choose_spec (interpolate_total ((List.range (k + 1)).map (fun i : ℕ => func ((i : ℤ) + 1))))
  have hmapM : (List.range order).mapM
      (fun k => interpolate
        (((List.range order).map (fun i : ℕ => func ((i : ℤ) + 1))).take (k + 1))) =
      some ((List.range order).map g) := by
    refine mapM_eq_some_map _ _ g (fun k hk => ?_)
    rw [data_take func order k (List.mem_range.mp hk)]
    exact hgspec k
  have hsol : ∀ fuel, solution func order fuel =
      ((List.range order).mapM
        (fun k => interpolate
          (((List.range order).map (fun i : ℕ => func ((i : ℤ) + 1))).take (k + 1)))).bind
        (fun polys => polys.foldlM
          (fun ret poly => (firstDisagree func poly fuel 1).map (fun x_val => ret + poly x_val))
          0) := fun _ => rfl
  constructor
  · rintro ⟨fuel, r, hr⟩
    rw [hsol fuel, hmapM, Option.some_bind] at hr
    have hall := (scanFold_isSome_iff func fuel ((List.range order).map g) 0).mp ⟨r, hr⟩
    intro k hk1 hk2
    have hkmem : k - 1 ∈ List.range order := List.mem_range.mpr (by omega)
    obtain ⟨v, hv⟩ := hall (g (k - 1)) (List.mem_map_of_mem g hkmem)
    refine ⟨g (k - 1), ?_, ?_⟩
    · have : k - 1 + 1 = k := by omega
      rw [← this]
      exact hgspec (k - 1)
    · obtain ⟨z, hz1, hz2⟩ := (firstDisagree_exists_fuel_iff func (g (k - 1))).mp ⟨fuel, v, hv⟩
      exact ⟨z, hz1, hz2⟩
  · intro hall
    have heach : ∀ p ∈ (List.range order).map g, ∃ fuel v, firstDisagree func p fuel 1 = some v := by
      intro p hp
      obtain ⟨k, hk, rfl⟩ := List.mem_map.mp hp
      have hkord := List.mem_range.mp hk
      obtain ⟨f, hf, z, hz1, hz2⟩ := hall (k + 1) (by omega) (by omega)
      have hfg : f = g k := by
        have := hgspec k
        rw [hf] at this
        exact (Option.some_inj.mp this)
      rw [hfg] at hz2
      exact (firstDisagree_exists_fuel_iff func (g k)).mpr ⟨z, hz1, hz2⟩
    obtain ⟨fuel, hfuel⟩ := exists_uniform_fuel func _ heach
    obtain ⟨r, hr⟩ := (scanFold_isSome_iff func fuel ((List.range order).map g) 0).mpr hfuel
    refine ⟨fuel, r, ?_⟩
    rw [hsol fuel, hmapM, Option.some_bind]
    exact hr

/-- Witness for claim C10 at `func = n³`, `order = 1` (the constant
interpolant `1` disagrees with the cubes at `z = 2`, so `solution`
terminates for some fuel). -/
theorem C10_solution_terminates_iff_witness :
    (1 : ℕ) ≤ 1 ∧
      ((∃ fuel r, solution (fun n => n ^ 3) 1 fuel = some r) ↔
        (∀ k, 1 ≤ k → k ≤ 1 →
          ∃ f, interpolate ((List.range k).map (fun i : ℕ => (fun n : ℤ => n ^ 3) ((i : ℤ) + 1))) =
            some f ∧ ∃ z : ℤ, 1 ≤ z ∧ f z ≠ (fun n : ℤ => n ^ 3) z)) :=
  ⟨le_refl 1, C10_solution_terminates_iff (fun n => n ^ 3) 1 (le_refl 1)⟩

/-! ### Reference-level model of `solve` for the frame property (claim C9)

Python lists are mutable objects; `solve` receives references to the
caller's row objects and mutates only the rows of the freshly allocated
`augmented` list.  To state that the arguments are left unchanged we model
the heap of row objects explicitly: a heap maps addresses to row contents,
`matrix` and `vector` are lists of row addresses, and `augmented` is a
local list of freshly allocated addresses.  Every Python statement of the
source maps to the same operation as in the pure model, except that entry
assignment writes through the row's address. -/

/-- The heap of Python list-of-float row objects. -/
abbrev Heap := ℕ → List ℚ

/-- The local state of `solve`: the `augmented` list object (a list of row
addresses) and the heap. -/
structure HState where
  addrs : List ℕ
  heap : Heap

/-- Write `v` into entry `j` of the row object at address `ad`. -/
def hwrite (h : Heap) (ad j : ℕ) (v : ℚ) : Heap :=
  fun a => if a = ad then (h ad).set j v else h a

/-- Assignment `augmented[i][j] = v` through the heap: resolve the row address, then
write.  Out-of-range indices resolve to the scratch address `junk`. -/
def setEH (junk : ℕ) (σ : HState) (i j : ℕ) (v : ℚ) : HState :=
  ⟨σ.addrs, hwrite σ.heap (σ.addrs.getD i junk) j v⟩

/-- Read `augmented[r][c]` through the heap. -/
def mgetH (junk : ℕ) (σ : HState) (r c : ℕ) : ℚ :=
  (σ.heap (σ.addrs.getD r junk)).getD c 0

/-- The simultaneous swap `augmented[i], augmented[j] = augmented[j],
augmented[i]` permutes the address list; no row object is touched. -/
def swapRowsH (junk : ℕ) (σ : HState) (i j : ℕ) : HState :=
  ⟨(σ.addrs.set i (σ.addrs.getD j junk)).set j (σ.addrs.getD i junk), σ.heap⟩

/-- Heap-level partial pivoting (pure reads). -/
def pivotRowH (junk : ℕ) (σ : HState) (col size : ℕ) : ℕ :=
  (forRange (col + 1) size
    (fun best r2 => if |mgetH junk σ r2 col| ≥ best.1 then (|mgetH junk σ r2 col|, r2) else best)
    (|mgetH junk σ col col|, col)).2

/-- Heap-level elimination of the rows below `(row, col)`. -/
def eliminateBelowH (junk : ℕ) (σ : HState) (size row col : ℕ) : HState :=
  forRange (row + 1) size
    (fun σb row2 =>
      let ratio := mgetH junk σb row2 col / mgetH junk σb row col
      let σ1 := setEH junk σb row2 col 0
      forRange (col + 1) (size + 1)
        (fun σc col2 =>
          setEH junk σc row2 col2 (mgetH junk σc row2 col2 - mgetH junk σc row col2 * ratio)) σ1)
    σ

/-- Heap-level elimination loop (structural fuel, as in `elimGas`). -/
def elimGasH (junk : ℕ) : ℕ → HState → ℕ → ℕ → ℕ → HState
  | 0, σ, _, _, _ => σ
  | gas + 1, σ, size, row, col =>
    if row < size ∧ col < size then
      if mgetH junk σ (pivotRowH junk σ col size) col = 0 then
        elimGasH junk gas σ size row (col + 1)
      else
        elimGasH junk gas (eliminateBelowH junk (swapRowsH junk σ row (pivotRowH junk σ col size))
          size row col) size (row + 1) (col + 1)
    else σ

/-- Heap-level back substitution. -/
def backSubstH (junk : ℕ) (σ : HState) (size : ℕ) : Option HState :=
  forRangeM 1 size
    (fun σb col =>
      forRangeM 0 col
        (fun σ2 row =>
          if mgetH junk σ2 col col = 0 then none
          else
            let ratio := mgetH junk σ2 row col / mgetH junk σ2 col col
            some (forRange col (size + 1)
              (fun σ3 col2 =>
                setEH junk σ3 row col2 (mgetH junk σ3 row col2 - mgetH junk σ3 col col2 * ratio))
              σ2))
        σb)
    σ

/-- Heap-level extraction (pure reads). -/
def extractSolH (junk : ℕ) (σ : HState) (size : ℕ) : Option (List (List ℚ)) :=
  (List.range size).mapM
    (fun row => if mgetH junk σ row row = 0 then none
      else some [round10 (mgetH junk σ row size / mgetH junk σ row row)])

/-- Heap-level `solve`: allocate `size` fresh zero rows at addresses
`next … next+size-1` for `augmented`, copy the argument entries in, then
run elimination, back substitution and extraction.  Returns the result and
the final heap (also on the error paths, which model a raised
`ZeroDivisionError`). -/
def solveH (heap : Heap) (next : ℕ) (matrix vector : List ℕ) :
    Option (List (List ℚ)) × Heap :=
  let size := matrix.length
  let junk := next + size
  let heap0 : Heap := fun a =>
    if next ≤ a ∧ a < next + size then List.replicate (size + 1) 0 else heap a
  let σ0 : HState := ⟨(List.range size).map (fun i => next + i), heap0⟩
  let σ1 := forRange 0 size
    (fun σ row =>
      let σ' := forRange 0 size
        (fun σc col => setEH junk σc row col ((σc.heap (matrix.getD row junk)).getD col 0)) σ
      setEH junk σ' row size ((σ'.heap (vector.getD row junk)).getD 0 0))
    σ0
  let σ2 := elimGasH junk size σ1 size 0 0
  match backSubstH junk σ2 size with
  | none => (none, σ2.heap)
  | some σ3 => (extractSolH junk σ3 size, σ3.heap)

/-- The frame invariant: all row addresses held by `augmented` are in the
fresh region (`≥ next`), and the heap below `next` is untouched. -/
def frameInv (heap : Heap) (next : ℕ) (σ : HState) : Prop :=
  (∀ ad ∈ σ.addrs, next ≤ ad) ∧ ∀ ad, ad < next → σ.heap ad = heap ad

theorem frameInv_setEH {heap : Heap} {next : ℕ} {σ : HState} (junk i j : ℕ) (v : ℚ)
    (hjunk : next ≤ junk) (hσ : frameInv heap next σ) :
    frameInv heap next (setEH junk σ i j v) := by
  obtain ⟨haddrs, hheap⟩ := hσ
  have htarget : next ≤ σ.addrs.getD i junk := by
    rcases Nat.lt_or_ge i σ.addrs.length with hi | hi
    · rw [List.getD_eq_getElem?_getD, List.getElem?_eq_getElem hi]
      exact haddrs _ (List.getElem_mem hi)
    · rw [List.getD_eq_getElem?_getD, List.getElem?_eq_none hi]
      exact hjunk
  refine ⟨haddrs, fun ad had => ?_⟩
  show hwrite σ.heap (σ.addrs.getD i junk) j v ad = heap ad
  unfold hwrite
  rw [if_neg (by omega), hheap ad had]

theorem frameInv_swapRowsH {heap : Heap} {next : ℕ} {σ : HState} (junk i j : ℕ)
    (hjunk : next ≤ junk) (hσ : frameInv heap next σ) :
    frameInv heap next (swapRowsH junk σ i j) := by
  obtain ⟨haddrs, hheap⟩ := hσ
  have hgetD : ∀ k, next ≤ σ.addrs.getD k junk := by
    intro k
    rcases Nat.lt_or_ge k σ.addrs.length with hk | hk
    · cases hh : σ.addrs[k]? with
      | none => rw [List.getD_eq_getElem?_getD, hh]; exact hjunk
      | some ad =>
        rw [List.getD_eq_getElem?_getD, hh]
        exact haddrs ad (List.getElem?_mem hh)
    · rw [List.getD_eq_getElem?_getD, List.getElem?_eq_none hk]
      exact hjunk
  refine ⟨?_, hheap⟩
  intro ad had
  rcases List.mem_or_eq_of_mem_set had with had' | rfl
  · rcases List.mem_or_eq_of_mem_set had' with had'' | rfl
    · exact haddrs ad had''
    · exact hgetD j
  · exact hgetD i

theorem frameInv_eliminateBelowH {heap : Heap} {next : ℕ} (junk : ℕ) (σ : HState)
    (size row col : ℕ) (hjunk : next ≤ junk) (hσ : frameInv heap next σ) :
    frameInv heap next (eliminateBelowH junk σ size row col) := by
  unfold eliminateBelowH
  refine forRange_keep (frameInv heap next) hσ (fun σb row2 _ _ hb => ?_)
  refine forRange_keep (frameInv heap next) (frameInv_setEH _ _ _ _ hjunk hb)
    (fun σc col2 _ _ hc => frameInv_setEH _ _ _ _ hjunk hc)

theorem frameInv_elimGasH {heap : Heap} {next : ℕ} (junk : ℕ) :
    ∀ (gas : ℕ) (σ : HState) (size row col : ℕ), next ≤ junk →
      frameInv heap next σ → frameInv heap next (elimGasH junk gas σ size row col) := by
  intro gas
  induction gas with
  | zero => intro σ _ _ _ _ hσ; exact hσ
  | succ gas ih =>
    intro σ size row col hjunk hσ
    show frameInv heap next
      (if row < size ∧ col < size then
        if mgetH junk σ (pivotRowH junk σ col size) col = 0 then
          elimGasH junk gas σ size row (col + 1)
        else
          elimGasH junk gas (eliminateBelowH junk (swapRowsH junk σ row (pivotRowH junk σ col size))
            size row col) size (row + 1) (col + 1)
      else σ)
    split_ifs with h1 h2
    · exact ih σ size row (col + 1) hjunk hσ
    · exact ih _ size (row + 1) (col + 1) hjunk
        (frameInv_eliminateBelowH junk _ size row col hjunk
          (frameInv_swapRowsH _ _ _ hjunk hσ))
    · exact hσ

/-- Success-conditioned preservation for `forRangeM` with a counter-free
predicate (no bound on the loop range needed). -/
theorem forRangeM_some_keep {α : Type} {lo hi : ℕ} {f : α → ℕ → Option α} {init : α}
    (P : α → Prop) (hinit : P init)
    (hstep : ∀ i s t, lo ≤ i → i < hi → P s → f s i = some t → P t) :
    ∀ t, forRangeM lo hi f init = some t → P t := by
  rcases Nat.lt_or_ge hi lo with hlt | hge
  · intro t ht
    rw [forRangeM_empty _ _ _ _ (by omega)] at ht
    cases ht
    exact hinit
  · exact forRangeM_some_ind (fun _ s => P s) hinit
      (fun i s t h1 h2 h3 h4 => hstep i s t h1 h2 h3 h4) hge

theorem frameInv_backSubstH {heap : Heap} {next : ℕ} (junk : ℕ) (σ : HState) (size : ℕ)
    (hjunk : next ≤ junk) (hσ : frameInv heap next σ) :
    ∀ σ', backSubstH junk σ size = some σ' → frameInv heap next σ' := by
  unfold backSubstH
  refine forRangeM_some_keep (fun σb => frameInv heap next σb) hσ ?_
  intro col σb σb' _ _ hb hstep
  revert hstep
  refine forRangeM_some_keep (fun σ2 => frameInv heap next σ2) hb ?_ σb'
  intro row σ2 σ2' _ _ h2 hstep
  by_cases hz : mgetH junk σ2 col col = 0
  · rw [if_pos hz] at hstep
    cases hstep
  · rw [if_neg hz] at hstep
    simp only [Option.some_inj] at hstep
    subst hstep
    refine forRange_keep (frameInv heap next) h2
      (fun σ3 col2 _ _ h3 => frameInv_setEH _ _ _ _ hjunk h3)

/-- Claim C9: `solve` leaves its arguments unchanged.  In the heap model,
where `matrix` and `vector` are the caller's lists of row-object addresses
(all allocated below `next`), every row object of both arguments has the
same contents after the call as before — all elimination is performed on
the freshly allocated `augmented` rows at `next … next+size-1`. -/
theorem C9_solve_preserves_arguments (heap : Heap) (next : ℕ) (matrix vector : List ℕ)
    (hm : ∀ ad ∈ matrix, ad < next) (hv : ∀ ad ∈ vector, ad < next) :
    (∀ ad ∈ matrix, (solveH heap next matrix vector).2 ad = heap ad) ∧
      (∀ ad ∈ vector, (solveH heap next matrix vector).2 ad = heap ad) := by
  set size := matrix.length with hsize
  set junk := next + size with hjunkdef
  have hjunk : next ≤ junk := by omega
  have hσ0 : frameInv heap next
      ⟨(List.range size).map (fun i => next + i),
        fun a => if next ≤ a ∧ a < next + size then List.replicate (size + 1) 0 else heap a⟩ := by
    constructor
    · intro ad had
      obtain ⟨i, _, rfl⟩ := List.mem_map.mp had
      omega
    · intro ad had
      show (if next ≤ ad ∧ ad < next + size then List.replicate (size + 1) 0 else heap ad) = heap ad
      rw [if_neg (by omega)]
  have hσ1 : frameInv heap next (forRange 0 size
      (fun σ row =>
        let σ' := forRange 0 size
          (fun σc col => setEH junk σc row col ((σc.heap (matrix.getD row junk)).getD col 0)) σ
        setEH junk σ' row size ((σ'.heap (vector.getD row junk)).getD 0 0))
      ⟨(List.range size).map (fun i => next + i),
        fun a => if next ≤ a ∧ a < next + size then List.replicate (size + 1) 0 else heap a⟩) := by
    refine forRange_keep (frameInv heap next) hσ0 (fun σ row _ _ hb => ?_)
    refine frameInv_setEH _ _ _ _ hjunk ?_
    exact forRange_keep (frameInv heap next) hb
      (fun σc col _ _ hc => frameInv_setEH _ _ _ _ hjunk hc)
  have hσ2 := frameInv_elimGasH junk size _ size 0 0 hjunk hσ1
  have hfinal : ∀ ad, ad < next → (solveH heap next matrix vector).2 ad = heap ad := by
    intro ad had
    show (match backSubstH junk (elimGasH junk size _ size 0 0) size with
      | none => (none, (elimGasH junk size _ size 0 0).heap)
      | some σ3 => (extractSolH junk σ3 size, σ3.heap)).2 ad = heap ad
    cases hb : backSubstH junk (elimGasH junk size _ size 0 0) size with
    | none => exact hσ2.2 ad had
    | some σ3 => exact (frameInv_backSubstH junk _ size hjunk hσ2 σ3 hb).2 ad had
  exact ⟨fun ad had => hfinal ad (hm ad had), fun ad had => hfinal ad (hv ad had)⟩

/-- A tiny concrete heap: the caller's matrix row `[2]` at address 0 and
vector row `[8]` at address 1. -/
def exHeap : Heap := fun a => if a = 0 then [2] else if a = 1 then [8] else []

/-- Witness for claim C9 at the 1×1 system `[[2]]·x = [[8]]` laid out in
`exHeap`: both caller row objects are unchanged by the call. -/
theorem C9_solve_preserves_arguments_witness :
    ((∀ ad ∈ ([0] : List ℕ), ad < 2) ∧ (∀ ad ∈ ([1] : List ℕ), ad < 2)) ∧
      ((∀ ad ∈ ([0] : List ℕ), (solveH exHeap 2 [0] [1]).2 ad = exHeap ad) ∧
        (∀ ad ∈ ([1] : List ℕ), (solveH exHeap 2 [0] [1]).2 ad = exHeap ad)) :=
  ⟨⟨by decide, by decide⟩,
    C9_solve_preserves_arguments exHeap 2 [0] [1] (by decide) (by decide)⟩

end Euler101
